import Mathlib

/-!
Verification of the task-graph application's core graph mutation and
synchronization operations, as a shallow embedding of the JavaScript source.

Conventions of the embedding:
* A JS object holding nodes (`userData`) is an association list
  `List (String × Node)`; JS key lookup is `lookup` (first match), JS key
  update (which keeps an existing key's position and appends a fresh key at
  the end) is `setKey`.
* JS objects may lack any field, so every `Node` field is an `Option`.
* A JS patch/overrides object (spread with `{...node, ...patch}`) is a
  `Patch`, whose fields are doubly-optional: the outer `Option` is presence
  of the field in the patch object, the inner value is what it stores
  (`none` for an explicit `null`/`undefined`).
* The `dueDate` field stores the numeric (year, month, day) content of the
  on-the-wire "YYYY-MM-DD" string; `none` covers `null`, absent, and
  non-conforming strings (the code's `split('-')`/`Number.isFinite` checks
  send all of those to the untouched branch).
-/

namespace TaskGraph

/-- A node of the task graph (`userData[id]` in the source). Every field is
optional because a JS object may lack any of them. -/
structure Node where
  title : Option String := none
  type : Option String := none
  children : Option (List String) := none
  visible : Option Bool := none
  depth : Option Int := none
  completed : Option Bool := none
  dueDate : Option (Int × Int × Int) := none
  repeatDays : Option Int := none
  content : Option String := none
deriving DecidableEq, Repr

/-- The graph: JS object keyed by node id, kept in insertion order. -/
abbrev Graph : Type := List (String × Node)

/-- JS property read `data[k]`: the first entry with key `k`. -/
def lookup : Graph → String → Option Node
  | [], _ => none
  | (k, n) :: rest, x => if k = x then some n else lookup rest x

/-- The keys of the graph object. -/
def keys (g : Graph) : List String := List.map Prod.fst g

/-- JS property write `{...data, [k]: v}`: update in place if the key exists,
append at the end otherwise. -/
def setKey : Graph → String → Node → Graph
  | [], k, v => [(k, v)]
  | (k', n) :: rest, k, v =>
      if k' = k then (k, v) :: rest else (k', n) :: setKey rest k v

theorem lookup_mem {g : Graph} {x : String} {n : Node}
    (h : lookup g x = some n) : (x, n) ∈ g := by
  induction g with
  | nil => simp [lookup] at h
  | cons p rest ih =>
    obtain ⟨k, m⟩ := p
    by_cases hk : k = x
    · subst hk
      simp [lookup] at h
      subst h
      exact List.mem_cons_self _ _
    · simp [lookup, hk] at h
      exact List.mem_cons_of_mem _ (ih h)

theorem lookup_setKey_self (g : Graph) (k : String) (v : Node) :
    lookup (setKey g k v) k = some v := by
  induction g with
  | nil => simp [setKey, lookup]
  | cons p rest ih =>
    obtain ⟨k', n⟩ := p
    by_cases hk : k' = k
    · simp [setKey, hk, lookup]
    · simp [setKey, hk, lookup, ih]

theorem lookup_setKey_other (g : Graph) (k k' : String) (v : Node)
    (hne : k' ≠ k) : lookup (setKey g k v) k' = lookup g k' := by
  have hkk : k ≠ k' := fun h => hne h.symm
  induction g with
  | nil => simp [setKey, lookup, hkk]
  | cons p rest ih =>
    obtain ⟨k₀, n⟩ := p
    by_cases hk : k₀ = k
    · subst hk
      simp [setKey, lookup, hkk]
    · simp only [setKey, if_neg hk, lookup]
      by_cases hk' : k₀ = k'
      · simp [hk']
      · simp [hk', ih]

theorem setKey_of_not_mem (g : Graph) (k : String) (v : Node)
    (h : k ∉ keys g) : setKey g k v = g ++ [(k, v)] := by
  induction g with
  | nil => rfl
  | cons p rest ih =>
    obtain ⟨k', n⟩ := p
    simp only [keys, List.map_cons, List.mem_cons, not_or] at h
    have hne : k' ≠ k := fun he => h.1 he.symm
    simp only [setKey, if_neg hne, List.cons_append, List.cons.injEq, true_and]
    exact ih (by simp [keys, h.2])

/-- All ids that occur in some node's `children` array. -/
def childUniverse (g : Graph) : List String :=
  List.flatten (List.map (fun p => (Prod.snd p).children.getD []) g)

theorem children_subset_childUniverse {g : Graph} {x : String} {n : Node}
    (h : lookup g x = some n) : ∀ c ∈ n.children.getD [], c ∈ childUniverse g := by
  intro c hc
  have hmem := lookup_mem h
  unfold childUniverse
  rw [List.mem_flatten]
  exact ⟨n.children.getD [], List.mem_map_of_mem _ hmem, hc⟩

/-- Pop entries off the stack until an unvisited one is found (the
`if (toDelete.has(current)) continue;` part of the traversal loop). -/
def dropVisited (visited : Finset String) : List String → Option (String × List String)
  | [] => none
  | c :: rest => if c ∈ visited then dropVisited visited rest else some (c, rest)

theorem dropVisited_none {visited : Finset String} :
    ∀ {s : List String}, dropVisited visited s = none → ∀ x ∈ s, x ∈ visited := by
  intro s
  induction s with
  | nil => simp
  | cons c rest ih =>
    intro h
    by_cases hc : c ∈ visited
    · simp only [dropVisited, if_pos hc] at h
      intro x hx
      rcases List.mem_cons.mp hx with h1 | h2
      · exact h1 ▸ hc
      · exact ih h x h2
    · simp [dropVisited, hc] at h

theorem dropVisited_some {visited : Finset String} {c : String} {rest : List String} :
    ∀ {s : List String}, dropVisited visited s = some (c, rest) →
    c ∈ s ∧ c ∉ visited ∧ (∀ x ∈ rest, x ∈ s) ∧
      (∀ x ∈ s, x ∈ visited ∨ x = c ∨ x ∈ rest) := by
  intro s
  induction s with
  | nil => intro h; simp [dropVisited] at h
  | cons a s' ih =>
    intro h
    by_cases ha : a ∈ visited
    · simp only [dropVisited, if_pos ha] at h
      obtain ⟨h1, h2, h3, h4⟩ := ih h
      refine ⟨List.mem_cons_of_mem _ h1, h2, fun x hx => List.mem_cons_of_mem _ (h3 x hx), ?_⟩
      intro x hx
      rcases List.mem_cons.mp hx with rfl | hx'
      · exact Or.inl ha
      · exact h4 x hx'
    · simp only [dropVisited, if_neg ha, Option.some.injEq, Prod.mk.injEq] at h
      obtain ⟨rfl, rfl⟩ := h
      refine ⟨List.mem_cons_self _ _, ha, fun x hx => List.mem_cons_of_mem _ hx, ?_⟩
      intro x hx
      rcases List.mem_cons.mp hx with rfl | hx'
      · exact Or.inr (Or.inl rfl)
      · exact Or.inr (Or.inr hx')

/-- The worklist loop of `recursiveDelete` step 1: depth-first collection of
`nodeId` and all ids reachable from it through `children`, protected against
cycles by the visited set.  The JS `while (stack.length)` loop terminates
because each round inserts a fresh id into the visited set; `fuel` is an
explicit bound on the number of such rounds, and `collect` below supplies a
provably sufficient amount. -/
def collectGo (g : Graph) : Nat → Finset String → List String → Finset String
  | 0, visited, _ => visited
  | fuel + 1, visited, stack =>
      match dropVisited visited stack with
      | none => visited
      | some (c, rest) =>
          let stack' := match lookup g c with
            | some n => (n.children.getD []).reverse ++ rest
            | none => rest
          collectGo g fuel (insert c visited) stack'

/-- Every id the traversal can ever push: the start id and all child ids. -/
def collectUniverse (g : Graph) (nodeId : String) : Finset String :=
  insert nodeId (childUniverse g).toFinset

/-- The set `toDelete` of `recursiveDelete`. -/
def collect (g : Graph) (nodeId : String) : Finset String :=
  collectGo g ((collectUniverse g nodeId).card + 1) ∅ [nodeId]

theorem visited_subset_collectGo (g : Graph) :
    ∀ fuel visited stack, visited ⊆ collectGo g fuel visited stack := by
  intro fuel
  induction fuel with
  | zero => intro visited stack; simp [collectGo]
  | succ f ih =>
    intro visited stack
    unfold collectGo
    cases hdv : dropVisited visited stack with
    | none => simp
    | some p =>
      obtain ⟨c, rest⟩ := p
      simp only []
      exact fun x hx =>
        ih (insert c visited) _ (Finset.mem_insert_of_mem hx)

theorem collectGo_spec (g : Graph) (U : Finset String)
    (hU : ∀ x n, lookup g x = some n → ∀ c ∈ n.children.getD [], c ∈ U) :
    ∀ fuel (visited : Finset String) (stack : List String),
      (∀ x ∈ stack, x ∈ U) →
      (U \ visited).card + 1 ≤ fuel →
      (∀ v ∈ visited, ∀ n, lookup g v = some n →
        ∀ c ∈ n.children.getD [], c ∈ visited ∨ c ∈ stack) →
      (∀ x ∈ stack, x ∈ collectGo g fuel visited stack) ∧
      (∀ v ∈ collectGo g fuel visited stack, ∀ n, lookup g v = some n →
        ∀ c ∈ n.children.getD [], c ∈ collectGo g fuel visited stack) := by
  intro fuel
  induction fuel with
  | zero => intro visited stack hstack hfuel hpre; omega
  | succ f ih =>
    intro visited stack hstack hfuel hpre
    unfold collectGo
    cases hdv : dropVisited visited stack with
    | none =>
      refine ⟨fun x hx => dropVisited_none hdv x hx, ?_⟩
      intro v hv n hn c hc
      rcases hpre v hv n hn c hc with h | h
      · exact h
      · exact dropVisited_none hdv c h
    | some p =>
      obtain ⟨c, rest⟩ := p
      obtain ⟨hcs, hcnv, hrest, hsplit⟩ := dropVisited_some hdv
      simp only []
      set stack' := (match lookup g c with
        | some n => (n.children.getD []).reverse ++ rest
        | none => rest) with hsdef
      have hstack' : ∀ x ∈ stack', x ∈ U := by
        intro x hx
        rw [hsdef] at hx
        cases hl : lookup g c with
        | none =>
          rw [hl] at hx
          exact hstack x (hrest x hx)
        | some n =>
          rw [hl] at hx
          rcases List.mem_append.mp hx with h1 | h2
          · exact hU c n hl x (List.mem_reverse.mp h1)
          · exact hstack x (hrest x h2)
      have hcU : c ∈ U := hstack c hcs
      have hfuel' : (U \ insert c visited).card + 1 ≤ f := by
        have hmem : c ∈ U \ visited := Finset.mem_sdiff.mpr ⟨hcU, hcnv⟩
        have : U \ insert c visited = (U \ visited).erase c := by
          ext a
          simp [Finset.mem_sdiff, Finset.mem_erase, Finset.mem_insert]
          tauto
        rw [this]
        have := Finset.card_erase_of_mem hmem
        have hpos : 0 < (U \ visited).card := Finset.card_pos.mpr ⟨c, hmem⟩
        omega
      have hpre' : ∀ v ∈ insert c visited, ∀ n, lookup g v = some n →
          ∀ c' ∈ n.children.getD [], c' ∈ insert c visited ∨ c' ∈ stack' := by
        intro v hv n hn c' hc'
        rcases Finset.mem_insert.mp hv with rfl | hv'
        · rw [hsdef]
          rw [hn]
          exact Or.inr (List.mem_append.mpr (Or.inl (List.mem_reverse.mpr hc')))
        · rcases hpre v hv' n hn c' hc' with h | h
          · exact Or.inl (Finset.mem_insert_of_mem h)
          · rcases hsplit c' h with h1 | h2 | h3
            · exact Or.inl (Finset.mem_insert_of_mem h1)
            · exact Or.inl (h2 ▸ Finset.mem_insert_self _ _)
            · refine Or.inr ?_
              rw [hsdef]
              cases hl : lookup g c with
              | none => exact h3
              | some m => exact List.mem_append.mpr (Or.inr h3)
      obtain ⟨ih1, ih2⟩ := ih (insert c visited) stack' hstack' hfuel' hpre'
      refine ⟨?_, ih2⟩
      intro x hx
      rcases hsplit x hx with h1 | h2 | h3
      · exact visited_subset_collectGo g f (insert c visited) stack'
          (Finset.mem_insert_of_mem h1)
      · exact h2 ▸ visited_subset_collectGo g f (insert c visited) stack'
          (Finset.mem_insert_self _ _)
      · exact ih1 x (by
          rw [hsdef]
          cases hl : lookup g c with
          | none => exact h3
          | some m => exact List.mem_append.mpr (Or.inr h3))

/-- `Desc g x y`: `y` is `x` itself or a transitive descendant of `x`
through the `children` arrays of `g`. -/
inductive Desc (g : Graph) : String → String → Prop
  | refl (x : String) : Desc g x x
  | step {x y z : String} {n : Node} (hn : lookup g x = some n)
      (hc : y ∈ n.children.getD []) (h : Desc g y z) : Desc g x z

theorem mem_collect_self (g : Graph) (x : String) : x ∈ collect g x := by
  unfold collect
  have hspec := collectGo_spec g (collectUniverse g x)
    (fun a n hl c hc => Finset.mem_insert_of_mem
      (List.mem_toFinset.mpr (children_subset_childUniverse hl c hc)))
    ((collectUniverse g x).card + 1) ∅ [x]
    (by intro a ha; simp at ha; subst ha; exact Finset.mem_insert_self _ _)
    (by simp)
    (by simp)
  exact hspec.1 x (List.mem_singleton.mpr rfl)

theorem collect_closed (g : Graph) (x : String) :
    ∀ v ∈ collect g x, ∀ n, lookup g v = some n →
      ∀ c ∈ n.children.getD [], c ∈ collect g x := by
  unfold collect
  have hspec := collectGo_spec g (collectUniverse g x)
    (fun a n hl c hc => Finset.mem_insert_of_mem
      (List.mem_toFinset.mpr (children_subset_childUniverse hl c hc)))
    ((collectUniverse g x).card + 1) ∅ [x]
    (by intro a ha; simp at ha; subst ha; exact Finset.mem_insert_self _ _)
    (by simp)
    (by simp)
  exact hspec.2

theorem mem_collect_of_desc {g : Graph} {x y : String}
    (h : Desc g x y) : y ∈ collect g x := by
  have main : ∀ a b, Desc g a b → a ∈ collect g x → b ∈ collect g x := by
    intro a b hab
    induction hab with
    | refl => exact id
    | step hn hc _ ih =>
      intro ha
      exact ih (collect_closed g x _ ha _ hn _ hc)
  exact main x y h (mem_collect_self g x)

/-- `recursiveDelete` from `components.js`: collect the subtree rooted at
`nodeId` (step 1, `collect`), drop those keys (step 2), and filter every
surviving node's `children` array of the deleted ids (step 3; the source
rebuilds the node only when the filter shrank the array, which yields the
same object content). -/
def recursiveDelete (nodeId : String) (data : Graph) : Graph :=
  let toDelete := collect data nodeId
  List.map
    (fun p => (p.1, { p.2 with
      children := p.2.children.map (fun cs => cs.filter (fun c => decide (c ∉ toDelete))) }))
    (List.filter (fun p => decide (p.1 ∉ toDelete)) data)

theorem lookup_filterMap (R : Finset String) (g : Graph) (k : String) :
    lookup (List.map
      (fun p => (p.1, { p.2 with
        children := p.2.children.map (fun cs => cs.filter (fun c => decide (c ∉ R))) }))
      (List.filter (fun p => decide (p.1 ∉ R)) g) : Graph) k =
      if k ∈ R then none
      else (lookup g k).map (fun n => { n with
        children := n.children.map (fun cs => cs.filter (fun c => decide (c ∉ R))) }) := by
  induction g with
  | nil => simp only [List.filter_nil, List.map_nil, lookup, Option.map_none', ite_self]
  | cons p rest ih =>
    obtain ⟨k', n⟩ := p
    by_cases hkR : k' ∈ R
    · simp only [List.filter_cons, decide_eq_true_eq]
      rw [if_neg (by simp [hkR])]
      rw [ih]
      by_cases hk : k ∈ R
      · simp [hk]
      · have hne : k' ≠ k := fun h => hk (h ▸ hkR)
        simp [hk, lookup, hne]
    · simp only [List.filter_cons, decide_eq_true_eq]
      rw [if_pos (by simp [hkR])]
      simp only [List.map_cons]
      by_cases hk : k' = k
      · subst hk
        simp [lookup, hkR]
      · simp only [lookup, if_neg hk]
        exact ih

theorem lookup_recursiveDelete (nodeId : String) (g : Graph) (k : String) :
    lookup (recursiveDelete nodeId g) k =
      if k ∈ collect g nodeId then none
      else (lookup g k).map (fun n => { n with
        children := n.children.map
          (fun cs => cs.filter (fun c => decide (c ∉ collect g nodeId))) }) := by
  unfold recursiveDelete
  exact lookup_filterMap (collect g nodeId) g k

/-- C1. For every graph `G` and id `X`, `deleteSubtree(G, X)`
(`recursiveDelete`) removes `X` and every transitive descendant of `X` from
the keys, and no surviving node's `children` array still references `X` or
any such descendant. -/
theorem C1_deleteSubtree_removes_descendants (g : Graph) (x y : String)
    (hdesc : Desc g x y) :
    lookup (recursiveDelete x g) y = none ∧
      ∀ k n, lookup (recursiveDelete x g) k = some n → y ∉ n.children.getD [] := by
  have hy : y ∈ collect g x := mem_collect_of_desc hdesc
  constructor
  · rw [lookup_recursiveDelete, if_pos hy]
  · intro k n hk
    rw [lookup_recursiveDelete] at hk
    by_cases hkR : k ∈ collect g x
    · rw [if_pos hkR] at hk; exact absurd hk (by simp)
    · rw [if_neg hkR] at hk
      cases hl : lookup g k with
      | none => rw [hl] at hk; exact absurd hk (by simp)
      | some m =>
        rw [hl] at hk
        simp only [Option.map_some'] at hk
        cases hk
        cases hcs : m.children with
        | none => simp [hcs]
        | some cs =>
          simp only [hcs, Option.map_some', Option.getD_some]
          intro hmem
          have := (List.mem_filter.mp hmem).2
          simp at this
          exact this hy

/-- Example graph for the C1 witness: `r → a → b` plus a bystander `c`. -/
def gC1 : Graph :=
  [("r", { children := some ["a"] }),
   ("a", { children := some ["b"] }),
   ("b", { children := some [] }),
   ("c", { children := some ["a"] })]

theorem C1_witness :
    Desc gC1 "r" "b" ∧
      (lookup (recursiveDelete "r" gC1) "b" = none ∧
        ∀ k n, lookup (recursiveDelete "r" gC1) k = some n →
          "b" ∉ n.children.getD []) := by
  have hd : Desc gC1 "r" "b" := by
    refine Desc.step (y := "a") (n := { children := some ["a"] }) (by decide) (by decide) ?_
    refine Desc.step (y := "b") (n := { children := some ["b"] }) (by decide) (by decide) ?_
    exact Desc.refl "b"
  exact ⟨hd, C1_deleteSubtree_removes_descendants gC1 "r" "b" hd⟩

/-- C10. After `recursiveDelete`, every surviving node keeps all its fields
other than `children` unchanged, and its `children` array is only filtered
(a sublist of the original: surviving entries keep their relative order and
nothing is added). -/
theorem C10_deleteSubtree_frame (g : Graph) (x k : String) (n : Node)
    (h : lookup (recursiveDelete x g) k = some n) :
    ∃ m, lookup g k = some m ∧ n.title = m.title ∧ n.type = m.type ∧
      n.visible = m.visible ∧ n.depth = m.depth ∧ n.completed = m.completed ∧
      n.dueDate = m.dueDate ∧ n.repeatDays = m.repeatDays ∧
      n.content = m.content ∧
      List.Sublist (n.children.getD []) (m.children.getD []) := by
  rw [lookup_recursiveDelete] at h
  by_cases hkR : k ∈ collect g x
  · rw [if_pos hkR] at h; exact absurd h (by simp)
  · rw [if_neg hkR] at h
    cases hl : lookup g k with
    | none => rw [hl] at h; exact absurd h (by simp)
    | some m =>
      rw [hl] at h
      simp only [Option.map_some'] at h
      cases h
      refine ⟨m, rfl, rfl, rfl, rfl, rfl, rfl, rfl, rfl, rfl, ?_⟩
      cases hcs : m.children with
      | none => simp [hcs]
      | some cs =>
        simp only [hcs, Option.map_some', Option.getD_some]
        exact List.filter_sublist cs

theorem C10_witness :
    lookup (recursiveDelete "a" gC1) "c" =
        some { children := some [] } ∧
      ∃ m, lookup gC1 "c" = some m ∧
        ({ children := some [] } : Node).title = m.title ∧
        ({ children := some [] } : Node).type = m.type ∧
        ({ children := some [] } : Node).visible = m.visible ∧
        ({ children := some [] } : Node).depth = m.depth ∧
        ({ children := some [] } : Node).completed = m.completed ∧
        ({ children := some [] } : Node).dueDate = m.dueDate ∧
        ({ children := some [] } : Node).repeatDays = m.repeatDays ∧
        ({ children := some [] } : Node).content = m.content ∧
        List.Sublist (({ children := some [] } : Node).children.getD [])
          (m.children.getD []) := by
  have h : lookup (recursiveDelete "a" gC1) "c" = some { children := some [] } := by decide
  exact ⟨h, C10_deleteSubtree_frame gC1 "a" "c" _ h⟩

/-- A JS patch/overrides object. Outer `Option`: is the field present in the
object literal; inner value: what it stores (`none` for `null`/`undefined`). -/
structure Patch where
  title : Option (Option String) := none
  type : Option (Option String) := none
  children : Option (Option (List String)) := none
  visible : Option (Option Bool) := none
  depth : Option (Option Int) := none
  completed : Option (Option Bool) := none
  dueDate : Option (Option (Int × Int × Int)) := none
  repeatDays : Option (Option Int) := none
  content : Option (Option String) := none
deriving DecidableEq, Repr

/-- JS object spread `{...n, ...p}`: every field present in `p` wins. -/
def mergePatch (n : Node) (p : Patch) : Node :=
  { title := p.title.getD n.title
    type := p.type.getD n.type
    children := p.children.getD n.children
    visible := p.visible.getD n.visible
    depth := p.depth.getD n.depth
    completed := p.completed.getD n.completed
    dueDate := p.dueDate.getD n.dueDate
    repeatDays := p.repeatDays.getD n.repeatDays
    content := p.content.getD n.content }

/-- The empty JS object `{}` (also `{...undefined}`). -/
def emptyNode : Node := {}

/-- The default-field part of the node literal built by `createChildNode`:
`{title:'', type:'task', children:[], visible:true, completed:false,
dueDate:null, repeatDays:0}`. -/
def baseChildNode : Node :=
  { title := some "", type := some "task", children := some [],
    visible := some true, completed := some false, dueDate := none,
    repeatDays := some 0 }

/-- The full node literal of `createChildNode`: defaults, then
`...overrides`, then `depth: parentDepth + 1` (so `overrides` can never win
on `depth`). -/
def newChildNode (overrides : Patch) (parentDepth : Int) : Node :=
  { mergePatch baseChildNode overrides with depth := some (parentDepth + 1) }

/-- The `setUserData` update of `createChildNode` in `components.js`
(the graph-state part; the ReactFlow positioning code does not touch
`userData`).  The generated `crypto.randomUUID()` value is passed in as
`newId`.  Note the source never checks that `parentId` exists:
`prev[parentId]` may be `undefined`, in which case the spread builds a stub
parent object. -/
def createChildNode (g : Graph) (parentId newId : String) (overrides : Patch) : Graph :=
  let parentDepth : Int := ((lookup g parentId).bind Node.depth).getD 0
  let newNode := newChildNode overrides parentDepth
  let parent0 := (lookup g parentId).getD emptyNode
  let parentChildren := parent0.children.getD []
  setKey (setKey g newId newNode) parentId
    { parent0 with children := some (parentChildren ++ [newId]) }

/-- The `updateNode` closure from `makeDataForId` in `components.js`:
`prev => ({...prev, [id]: {...prev[id], ...patch}})`. -/
def updateNode (g : Graph) (id : String) (patch : Patch) : Graph :=
  setKey g id (mergePatch ((lookup g id).getD emptyNode) patch)

theorem lookup_eq_none_of_not_mem {g : Graph} {k : String}
    (h : k ∉ keys g) : lookup g k = none := by
  induction g with
  | nil => rfl
  | cons p rest ih =>
    obtain ⟨k', n⟩ := p
    simp only [keys, List.map_cons, List.mem_cons, not_or] at h
    have hne : ¬ k' = k := fun he => h.1 he.symm
    simp only [lookup, if_neg hne]
    exact ih (by simp [keys, h.2])

theorem mem_keys_of_lookup {g : Graph} {k : String} {n : Node}
    (h : lookup g k = some n) : k ∈ keys g := by
  by_contra hk
  rw [lookup_eq_none_of_not_mem hk] at h
  exact absurd h (by simp)

/-- Example graph for C2/C3/C8: a root with one child `A`. -/
def gRootA : Graph :=
  [("root", { children := some ["A"], depth := some 0 }),
   ("A", { children := some [], depth := some 1 })]

/-- C2 counterexample: with `parentId = "p"` absent from the graph,
`createChild` is not a no-op — it creates the new node and a stub entry at
`"p"`. -/
theorem C2_counterexample :
    createChildNode gRootA "p" "n1" {} ≠ gRootA := by decide

/-- C2 (amended). When `parentId` is not a key of the graph,
`createChildNode` is not a no-op: it appends the new node (with
`depth = 0 + 1 = 1`, since the missing parent's depth defaults to `0`) and a
stub entry at `parentId` whose only field is `children = [newId]`. -/
theorem C2_amended_createChild_missing_parent (g : Graph)
    (parentId newId : String) (overrides : Patch)
    (hp : parentId ∉ keys g) (hn : newId ∉ keys g) (hne : newId ≠ parentId) :
    createChildNode g parentId newId overrides =
      g ++ [(newId, newChildNode overrides 0),
            (parentId, { emptyNode with children := some [newId] })] := by
  have hlp : lookup g parentId = none := lookup_eq_none_of_not_mem hp
  have hpn : ¬ parentId = newId := fun he => hne he.symm
  unfold createChildNode
  rw [hlp]
  simp only [show ((none : Option Node).bind Node.depth) = none from rfl,
    Option.getD_none]
  rw [setKey_of_not_mem g newId _ hn]
  have hp2 : parentId ∉ keys (g ++ [(newId, newChildNode overrides 0)]) := by
    simp only [keys, List.map_append, List.mem_append, not_or]
    exact ⟨hp, by simp [hpn]⟩
  rw [setKey_of_not_mem _ parentId _ hp2]
  simp [emptyNode]

theorem C2_witness :
    ("p" ∉ keys gRootA ∧ "n1" ∉ keys gRootA ∧ "n1" ≠ "p") ∧
      createChildNode gRootA "p" "n1" {} =
        gRootA ++ [("n1", newChildNode {} 0),
                   ("p", { emptyNode with children := some ["n1"] })] :=
  ⟨⟨by decide, by decide, by decide⟩,
    C2_amended_createChild_missing_parent gRootA "p" "n1" {}
      (by decide) (by decide) (by decide)⟩

/-- C3 counterexample: patching an id that is not a key is not a no-op —
the patch object itself becomes a fresh node stored under that id. -/
theorem C3_counterexample :
    updateNode gRootA "x" { title := some (some "hi") } ≠ gRootA := by decide

/-- C3 (amended). `patch(graph, id, fields)` with `id` a key of the graph
shallow-merges `fields` into node `id`; but when `id` is absent it is not a
no-op: a new node holding exactly the patch fields (spread of `undefined`)
is appended under `id`. -/
theorem C3_amended_patch (g : Graph) (id : String) (p : Patch) :
    (∀ n, lookup g id = some n →
      updateNode g id p = setKey g id (mergePatch n p)) ∧
    (id ∉ keys g →
      updateNode g id p = g ++ [(id, mergePatch emptyNode p)]) := by
  constructor
  · intro n hn
    unfold updateNode
    rw [hn]
    rfl
  · intro h
    unfold updateNode
    rw [lookup_eq_none_of_not_mem h]
    exact setKey_of_not_mem g id _ h

theorem C3_witness :
    ("x" ∉ keys gRootA) ∧
      updateNode gRootA "x" { title := some (some "hi") } =
        gRootA ++ [("x", mergePatch emptyNode { title := some (some "hi") })] :=
  ⟨by decide,
    (C3_amended_patch gRootA "x" { title := some (some "hi") }).2 (by decide)⟩

/-- C8. For an existing parent and a fresh id, `createChildNode` appends
`newId` at the end of the parent's `children` (keeping the existing entries
and their order), stores the new node under `newId` with
`depth = parent.depth + 1` regardless of what `overrides` says about
`depth`, and touches no other entry. -/
theorem C8_createChild_appends (g : Graph) (parentId newId : String)
    (overrides : Patch) (parent : Node)
    (hp : lookup g parentId = some parent) (hfresh : newId ∉ keys g) :
    lookup (createChildNode g parentId newId overrides) parentId =
        some { parent with children := some (parent.children.getD [] ++ [newId]) } ∧
      lookup (createChildNode g parentId newId overrides) newId =
        some (newChildNode overrides (parent.depth.getD 0)) ∧
      (newChildNode overrides (parent.depth.getD 0)).depth =
        some (parent.depth.getD 0 + 1) ∧
      ∀ k, k ≠ parentId → k ≠ newId →
        lookup (createChildNode g parentId newId overrides) k = lookup g k := by
  have hne : newId ≠ parentId := fun h => hfresh (h ▸ mem_keys_of_lookup hp)
  unfold createChildNode
  simp only [hp, Option.bind_some, Option.getD_some]
  cases hd : parent.depth with
  | none =>
    refine ⟨?_, ?_, ?_, ?_⟩
    · rw [lookup_setKey_self]
    · rw [lookup_setKey_other _ _ _ _ hne, lookup_setKey_self]
      simp [hd]
    · simp [newChildNode]
    · intro k hk1 hk2
      rw [lookup_setKey_other _ _ _ _ hk1, lookup_setKey_other _ _ _ _ hk2]
  | some d =>
    refine ⟨?_, ?_, ?_, ?_⟩
    · rw [lookup_setKey_self]
    · rw [lookup_setKey_other _ _ _ _ hne, lookup_setKey_self]
      simp [hd]
    · simp [newChildNode]
    · intro k hk1 hk2
      rw [lookup_setKey_other _ _ _ _ hk1, lookup_setKey_other _ _ _ _ hk2]

theorem C8_witness :
    lookup gRootA "root" = some { children := some ["A"], depth := some 0 } ∧
      "B" ∉ keys gRootA ∧
      (lookup (createChildNode gRootA "root" "B" {}) "root" =
          some { ({ children := some ["A"], depth := some 0 } : Node) with
            children := some (({ children := some ["A"], depth := some 0 } : Node).children.getD [] ++ ["B"]) } ∧
        lookup (createChildNode gRootA "root" "B" {}) "B" =
          some (newChildNode {} (({ children := some ["A"], depth := some 0 } : Node).depth.getD 0)) ∧
        (newChildNode {} (({ children := some ["A"], depth := some 0 } : Node).depth.getD 0)).depth =
          some (({ children := some ["A"], depth := some 0 } : Node).depth.getD 0 + 1) ∧
        ∀ k, k ≠ "root" → k ≠ "B" →
          lookup (createChildNode gRootA "root" "B" {}) k = lookup gRootA k) :=
  ⟨by decide, by decide,
    C8_createChild_appends gRootA "root" "B" {} _ (by decide) (by decide)⟩

/-- Index of the LAST occurrence of `x` in `l` (`0` when absent), as built by
`new Map(sibs.map((id, idx) => [id, idx]))` followed by `.get(x) ?? 0` in
`onNodeDragStop`: later entries of a JS `Map` constructor overwrite earlier
ones. -/
def lastIdx : List String → String → Nat
  | [], _ => 0
  | _ :: rest, x => if x ∈ rest then lastIdx rest x + 1 else 0

theorem lastIdx_lt {l : List String} {x : String} (h : x ∈ l) :
    lastIdx l x < l.length := by
  induction l with
  | nil => simp at h
  | cons a rest ih =>
    by_cases hx : x ∈ rest
    · simp only [lastIdx, if_pos hx, List.length_cons]
      exact Nat.succ_lt_succ (ih hx)
    · simp [lastIdx, hx]

theorem getElem_lastIdx {l : List String} {x : String} (h : x ∈ l) :
    l[lastIdx l x]? = some x := by
  induction l with
  | nil => simp at h
  | cons a rest ih =>
    by_cases hx : x ∈ rest
    · simp only [lastIdx, if_pos hx]
      simpa using ih hx
    · have hax : a = x := by
        rcases List.mem_cons.mp h with h1 | h2
        · exact h1.symm
        · exact absurd h2 hx
      simp [lastIdx, hx, hax]

theorem lastIdx_inj {l : List String} {x y : String} (hx : x ∈ l) (hy : y ∈ l)
    (h : lastIdx l x = lastIdx l y) : x = y := by
  have h1 := getElem_lastIdx hx
  have h2 := getElem_lastIdx hy
  rw [h] at h1
  rw [h1] at h2
  exact (Option.some.injEq _ _ ▸ h2).symm ▸ rfl

/-- The comparator of `onNodeDragStop`: compare the supplied scalar position
(`posById.get(id) ?? +∞`), break ties by the current index in the sibling
array. -/
def siblingLe (y : String → WithTop ℚ) (sibs : List String) (a b : String) : Bool :=
  if y a = y b then lastIdx sibs a ≤ lastIdx sibs b else y a < y b

theorem siblingLe_trans (y : String → WithTop ℚ) (sibs : List String) :
    ∀ a b c, siblingLe y sibs a b = true → siblingLe y sibs b c = true →
      siblingLe y sibs a c = true := by
  intro a b c hab hbc
  unfold siblingLe at hab hbc ⊢
  by_cases h1 : y a = y b <;> by_cases h2 : y b = y c
  · rw [if_pos h1] at hab
    rw [if_pos h2] at hbc
    rw [if_pos (h1.trans h2)]
    simp only [decide_eq_true_eq] at hab hbc ⊢
    exact le_trans hab hbc
  · rw [if_neg h2] at hbc
    simp only [decide_eq_true_eq] at hbc
    have hac : ¬ y a = y c := by rw [h1]; exact ne_of_lt hbc
    rw [if_neg hac]
    simp only [decide_eq_true_eq]
    exact h1 ▸ hbc
  · rw [if_neg h1] at hab
    simp only [decide_eq_true_eq] at hab
    have hac : ¬ y a = y c := by rw [← h2]; exact ne_of_lt hab
    rw [if_neg hac]
    simp only [decide_eq_true_eq]
    exact h2 ▸ hab
  · rw [if_neg h1] at hab
    rw [if_neg h2] at hbc
    simp only [decide_eq_true_eq] at hab hbc
    have hlt := lt_trans hab hbc
    rw [if_neg (ne_of_lt hlt)]
    simp only [decide_eq_true_eq]
    exact hlt

theorem siblingLe_total (y : String → WithTop ℚ) (sibs : List String) :
    ∀ a b, (siblingLe y sibs a b || siblingLe y sibs b a) = true := by
  intro a b
  unfold siblingLe
  by_cases h : y a = y b
  · rw [if_pos h, if_pos h.symm]
    simp only [Bool.or_eq_true, decide_eq_true_eq]
    omega
  · rw [if_neg h, if_neg (fun he => h he.symm)]
    simp only [Bool.or_eq_true, decide_eq_true_eq]
    rcases lt_or_gt_of_ne h with h1 | h1
    · exact Or.inl h1
    · exact Or.inr h1

/-- Sorting a list once with the position comparator leaves it sorted for
the comparator rebuilt from its own (post-sort) indices: the reorder is a
fixpoint after one application. -/
theorem resorted_pairwise (y : String → WithTop ℚ) (sibs : List String) :
    (sibs.mergeSort (siblingLe y sibs)).Pairwise
      (fun a b => siblingLe y (sibs.mergeSort (siblingLe y sibs)) a b = true) := by
  set L := sibs.mergeSort (siblingLe y sibs) with hL
  have hperm : L.Perm sibs := List.mergeSort_perm sibs _
  have hP : L.Pairwise (fun a b => siblingLe y sibs a b = true) :=
    List.sorted_mergeSort (siblingLe_trans y sibs) (siblingLe_total y sibs) sibs
  rw [List.pairwise_iff_get] at hP ⊢
  intro i j hij
  by_cases hab : L.get i = L.get j
  · unfold siblingLe
    rw [hab, if_pos rfl]
    simp
  · have hle := hP i j hij
    unfold siblingLe at hle ⊢
    by_cases hy : y (L.get i) = y (L.get j)
    · rw [if_pos hy] at hle ⊢
      simp only [decide_eq_true_eq] at hle ⊢
      have hmi' : L.get i ∈ L := by
        simp [List.get_eq_getElem]
      have hmj' : L.get j ∈ L := by
        simp [List.get_eq_getElem]
      have hmi : L.get i ∈ sibs := hperm.mem_iff.mp hmi'
      have hmj : L.get j ∈ sibs := hperm.mem_iff.mp hmj'
      have hold : lastIdx sibs (L.get i) ≠ lastIdx sibs (L.get j) :=
        fun h => hab (lastIdx_inj hmi hmj h)
      have holdlt : lastIdx sibs (L.get i) < lastIdx sibs (L.get j) :=
        lt_of_le_of_ne hle hold
      have hpi := getElem_lastIdx hmi'
      have hpj := getElem_lastIdx hmj'
      by_contra hqp
      push_neg at hqp
      have hlti : lastIdx L (L.get i) < L.length := lastIdx_lt hmi'
      have hltj : lastIdx L (L.get j) < L.length := lastIdx_lt hmj'
      rcases Nat.lt_or_ge (lastIdx L (L.get j)) (lastIdx L (L.get i)) with hlt | hge
      · have hpw := hP ⟨lastIdx L (L.get j), hltj⟩ ⟨lastIdx L (L.get i), hlti⟩ hlt
        have hgj : L.get ⟨lastIdx L (L.get j), hltj⟩ = L.get j := by
          have := hpj
          rw [List.getElem?_eq_getElem hltj] at this
          simpa [List.get_eq_getElem] using Option.some.inj this
        have hgi : L.get ⟨lastIdx L (L.get i), hlti⟩ = L.get i := by
          have := hpi
          rw [List.getElem?_eq_getElem hlti] at this
          simpa [List.get_eq_getElem] using Option.some.inj this
        rw [hgj, hgi] at hpw
        unfold siblingLe at hpw
        rw [if_pos hy.symm] at hpw
        simp only [decide_eq_true_eq] at hpw
        omega
      · exact hab (lastIdx_inj hmi' hmj' (by omega))
    · rw [if_neg hy] at hle ⊢
      exact hle

/-- The sibling-reorder step of `onNodeDragStop` in `components.js`:
stable-sort `parentId`'s children by the supplied scalar position
(`posById.get(id) ?? Number.POSITIVE_INFINITY`), ties broken by the current
index; skip when the parent is missing, has at most one child, or the order
is unchanged. -/
def reorderChildrenByPosition (g : Graph) (parentId : String)
    (pos : String → Option ℚ) : Graph :=
  match lookup g parentId with
  | none => g
  | some parent =>
      let sibs := parent.children.getD []
      if sibs.length ≤ 1 then g
      else
        let y : String → WithTop ℚ := fun a => (pos a).elim ⊤ (fun v => (v : WithTop ℚ))
        let sorted := sibs.mergeSort (siblingLe y sibs)
        if sorted = sibs then g
        else setKey g parentId { parent with children := some sorted }

/-- C9. `reorderChildrenByPosition` is idempotent: applying the reorder
twice with the same position function yields the same graph as applying it
once. -/
theorem C9_reorder_idempotent (g : Graph) (parentId : String)
    (pos : String → Option ℚ) :
    reorderChildrenByPosition (reorderChildrenByPosition g parentId pos) parentId pos =
      reorderChildrenByPosition g parentId pos := by
  unfold reorderChildrenByPosition
  cases hl : lookup g parentId with
  | none => simp [hl]
  | some parent =>
    simp only []
    set sibs := parent.children.getD [] with hsibs
    by_cases hlen : sibs.length ≤ 1
    · simp [if_pos hlen, hl, ← hsibs, hlen]
    · rw [if_neg hlen]
      set y : String → WithTop ℚ := fun a => (pos a).elim ⊤ (fun v => (v : WithTop ℚ)) with hy
      set sorted := sibs.mergeSort (siblingLe y sibs) with hsorted
      by_cases hunch : sorted = sibs
      · rw [if_pos hunch, hl]
        simp only [← hsibs, if_neg hlen, ← hy, ← hsorted, if_pos hunch]
      · rw [if_neg hunch]
        rw [lookup_setKey_self]
        simp only []
        have hchild : ({ parent with children := some sorted } : Node).children.getD [] = sorted := rfl
        rw [hchild]
        have hlen2 : ¬ sorted.length ≤ 1 := by
          have : sorted.length = sibs.length := (List.mergeSort_perm sibs _).length_eq
          omega
        rw [if_neg hlen2]
        have hfix : sorted.mergeSort (siblingLe y sorted) = sorted := by
          apply List.mergeSort_of_sorted
          exact resorted_pairwise y sibs
        rw [if_pos hfix]

/-- Days before the shifted (March-first) year `yoe` within a 400-year era:
`365·yoe + ⌊yoe/4⌋ − ⌊yoe/100⌋`. -/
def eraStart (yoe : Int) : Int := 365 * yoe + yoe / 4 - yoe / 100

/-- Days before shifted month `mp` (0 = March) within a shifted year. -/
def monthStart (mp : Int) : Int := (153 * mp + 2) / 5

/-- Largest `j ≤ k` with `f j ≤ v` (and `0` when there is none). -/
def searchLast (f : Nat → Int) (v : Int) : Nat → Nat
  | 0 => 0
  | k + 1 => if f (k + 1) ≤ v then k + 1 else searchLast f v k

theorem searchLast_le (f : Nat → Int) (v : Int) : ∀ k, searchLast f v k ≤ k := by
  intro k
  induction k with
  | zero => exact le_refl 0
  | succ n ih =>
    unfold searchLast
    by_cases h : f (n + 1) ≤ v
    · rw [if_pos h]
    · rw [if_neg h]
      omega

theorem searchLast_spec (f : Nat → Int) (v : Int) (h0 : f 0 ≤ v) :
    ∀ k, f (searchLast f v k) ≤ v ∧
      (searchLast f v k < k → v < f (searchLast f v k + 1)) := by
  intro k
  induction k with
  | zero => exact ⟨h0, by omega⟩
  | succ n ih =>
    unfold searchLast
    by_cases h : f (n + 1) ≤ v
    · rw [if_pos h]
      exact ⟨h, by omega⟩
    · rw [if_neg h]
      obtain ⟨h2, h3⟩ := ih
      refine ⟨h2, fun _ => ?_⟩
      rcases Nat.lt_or_ge (searchLast f v n) n with hlt | hge
      · exact h3 hlt
      · have hle := searchLast_le f v n
        have heq : searchLast f v n = n := by omega
        rw [heq]
        omega

/-- Day number (1970-01-01 = day 0) of the proleptic Gregorian date
`(y, m, d)` for a 1-based month `m ∈ [1, 12]`; linear in `d`, so an
out-of-range day shifts by whole days exactly as ECMAScript `MakeDay`
does. -/
def daysFromCivil (y0 m d : Int) : Int :=
  let y := if m ≤ 2 then y0 - 1 else y0
  let era := y / 400
  let yoe := y - era * 400
  let doy := (153 * (m + (if m > 2 then -3 else 9)) + 2) / 5 + d - 1
  let doe := yoe * 365 + yoe / 4 - yoe / 100 + doy
  era * 146097 + doe - 719468

/-- ECMAScript `MakeDay(y, m, d)` with a 0-based month `m`: fold `m` into
the year, then convert. Models `new Date(year, month, day)` at day
granularity (the code zeroes the time of day with `setHours(0,0,0,0)`). -/
def jsMakeDay (y m d : Int) : Int :=
  daysFromCivil (y + m / 12) (m % 12 + 1) d

/-- Day number of a stored `"YYYY-MM-DD"` due date, i.e. the
`new Date(year, month - 1, day)` of the parsing code. -/
def dueDateDay (t : Int × Int × Int) : Int := jsMakeDay t.1 (t.2.1 - 1) t.2.2

/-- Civil Gregorian date of a day number, modelling
`toISOString().slice(0, 10)` (the code runs with dates at civil-day
granularity): find the year-of-era and month by searching the largest start
not exceeding the day-of-era. -/
def civilFromDays (z0 : Int) : Int × Int × Int :=
  let z := z0 + 719468
  let era := z / 146097
  let doe := z % 146097
  let yoe : Int := (searchLast (fun n => eraStart n) doe 399 : Nat)
  let y := yoe + era * 400
  let doy := doe - eraStart yoe
  let mp : Int := (searchLast (fun n => monthStart n) doy 11 : Nat)
  let d := doy - monthStart mp + 1
  let m := mp + (if mp < 10 then 3 else -9)
  (if m ≤ 2 then y + 1 else y, m, d)

theorem civilFromDays_eq (z : Int) :
    ∃ yoe mp : Nat, yoe ≤ 399 ∧ mp ≤ 11 ∧
      civilFromDays z =
        ((if (mp : Int) + (if (mp : Int) < 10 then 3 else -9) ≤ 2
            then (yoe : Int) + (z + 719468) / 146097 * 400 + 1
            else (yoe : Int) + (z + 719468) / 146097 * 400),
         (mp : Int) + (if (mp : Int) < 10 then 3 else -9),
         ((z + 719468) % 146097 - eraStart yoe) - monthStart mp + 1) := by
  refine ⟨searchLast (fun n => eraStart n) ((z + 719468) % 146097) 399,
    searchLast (fun n => monthStart n)
      ((z + 719468) % 146097 -
        eraStart (searchLast (fun n => eraStart n) ((z + 719468) % 146097) 399 : Nat)) 11,
    searchLast_le _ _ _, searchLast_le _ _ _, rfl⟩

set_option maxHeartbeats 1000000 in
theorem dueDateDay_civilFromDays (z : Int) : dueDateDay (civilFromDays z) = z := by
  obtain ⟨yoe, mp, hy, hm, heq⟩ := civilFromDays_eq z
  rw [heq]
  simp only [dueDateDay, jsMakeDay, daysFromCivil, eraStart, monthStart]
  split_ifs <;> omega

/-- The bounded catch-up loop of the recurring-task effect:
`while (due < today && guard < 1000) { due.setDate(due.getDate() + step); guard++ }`,
with the remaining guard budget as the recursion fuel. -/
def advanceLoop (today step : Int) : Int → Nat → Int
  | due, 0 => due
  | due, guard + 1 =>
      if due < today then advanceLoop today step (due + step) guard else due

theorem advanceLoop_ge_self (today step : Int) (hstep : 0 ≤ step) :
    ∀ (guard : Nat) (due : Int), due ≤ advanceLoop today step due guard := by
  intro guard
  induction guard with
  | zero => intro due; exact le_refl due
  | succ gd ih =>
    intro due
    unfold advanceLoop
    by_cases h : due < today
    · rw [if_pos h]
      calc due ≤ due + step := by omega
        _ ≤ advanceLoop today step (due + step) gd := ih (due + step)
    · rw [if_neg h]

theorem advanceLoop_gt (today step : Int) (hstep : 0 < step) (guard : Nat)
    (due : Int) (hlt : due < today) :
    due < advanceLoop today step due (guard + 1) := by
  unfold advanceLoop
  rw [if_pos hlt]
  calc due < due + step := by omega
    _ ≤ advanceLoop today step (due + step) guard :=
      advanceLoop_ge_self today step (by omega) guard (due + step)

theorem advanceLoop_reaches (today step : Int) (hstep : 0 < step) :
    ∀ (guard : Nat) (due : Int), today - due ≤ (guard : Int) * step →
      today ≤ advanceLoop today step due guard := by
  intro guard
  induction guard with
  | zero =>
    intro due h
    simp only [Nat.cast_zero, zero_mul] at h
    unfold advanceLoop
    omega
  | succ gd ih =>
    intro due h
    unfold advanceLoop
    by_cases hlt : due < today
    · rw [if_pos hlt]
      apply ih
      have hc : ((gd : Nat) + 1 : Int) * step = (gd : Int) * step + step := by ring
      push_cast at h
      rw [hc] at h
      linarith
    · rw [if_neg hlt]
      omega

/-- Per-node step of the recurring-task advancement effect in the Home
component (`part_002`): only a completed task with a parseable due date and
a positive `repeatDays` that is strictly overdue is touched; its due date is
stepped forward by `repeatDays` until `≥ today` (capped at 1000 steps) and
it is marked incomplete. -/
def advanceNode (today : Int) (n : Node) : Node :=
  match n.dueDate, n.repeatDays with
  | some t0, some step =>
      if step ≤ 0 then n
      else if n.completed ≠ some true then n
      else
        let due := dueDateDay t0
        if today ≤ due then n
        else
          let due2 := advanceLoop today step due 1000
          if due2 = due then n
          else { n with dueDate := some (civilFromDays due2), completed := some false }
  | _, _ => n

/-- The whole on-load recurring-task advancement pass over the graph. -/
def advanceRecurringTasks (g : Graph) (today : Int) : Graph :=
  List.map (fun p => (p.1, advanceNode today p.2)) g

theorem lookup_map_nodes (f : Node → Node) (g : Graph) (k : String) :
    lookup (List.map (fun p => (p.1, f p.2)) g : Graph) k = (lookup g k).map f := by
  induction g with
  | nil => rfl
  | cons p rest ih =>
    obtain ⟨k', n⟩ := p
    by_cases hk : k' = k
    · simp [lookup, hk]
    · simp [lookup, hk, ih]

/-- Concrete graph for the C4 counterexample: a completed daily task last
due 2020-01-01. -/
def gC4 : Graph :=
  [("t", { type := some "task", dueDate := some (2020, 1, 1),
           repeatDays := some 1, completed := some true })]

/-- The day number of 2024-01-10 (`new Date(2024, 0, 10)`). -/
def dayC4 : Int := jsMakeDay 2024 0 10

set_option maxRecDepth 8000 in
/-- C4 counterexample: 2020-01-01 is 1470 days before 2024-01-10, more than
the 1000-iteration cap can cover at one day per step, so the advanced task
comes out with dueDate 2022-09-27 — still strictly earlier than `today`,
and additionally marked incomplete. -/
theorem C4_counterexample :
    lookup (advanceRecurringTasks gC4 dayC4) "t" =
        some { type := some "task", dueDate := some (2022, 9, 27),
               repeatDays := some 1, completed := some false } ∧
      dueDateDay (2022, 9, 27) < dayC4 := by
  exact ⟨by decide, by decide⟩

/-- C4 (amended). `advanceRecurringTasks` leaves untouched every node that
lacks a due date, lacks a positive `repeatDays`, or is not completed; and
for a completed, overdue, repeating task it produces a due date on or after
`today` PROVIDED the task is overdue by at most 1000 repeat steps — the
guard cap of the catch-up loop; a task overdue by more than
`1000 · repeatDays` days is advanced by exactly 1000 steps and can remain
earlier than `today` (see the counterexample). -/
theorem C4_amended_advance (g : Graph) (today : Int) :
    (∀ k n, lookup g k = some n →
      (n.dueDate = none ∨ n.repeatDays = none ∨
        (∀ r, n.repeatDays = some r → r ≤ 0) ∨ n.completed ≠ some true) →
      lookup (advanceRecurringTasks g today) k = some n) ∧
    (∀ k m t0 r, lookup g k = some m → m.dueDate = some t0 →
      m.repeatDays = some r → m.completed = some true → 0 < r →
      dueDateDay t0 < today → today - dueDateDay t0 ≤ 1000 * r →
      ∀ n, lookup (advanceRecurringTasks g today) k = some n →
        ∃ t, n.dueDate = some t ∧ today ≤ dueDateDay t) := by
  constructor
  · intro k n hk hcond
    unfold advanceRecurringTasks
    rw [lookup_map_nodes, hk]
    have hfix : advanceNode today n = n := by
      rcases hcond with h | h | h | h
      · unfold advanceNode
        rw [h]
      · unfold advanceNode
        rw [h]
        cases n.dueDate <;> rfl
      · unfold advanceNode
        cases hdd : n.dueDate with
        | none => rfl
        | some t0 =>
          cases hrd : n.repeatDays with
          | none => rfl
          | some r =>
            simp only []
            rw [if_pos (h r hrd)]
      · unfold advanceNode
        cases hdd : n.dueDate with
        | none => rfl
        | some t0 =>
          cases hrd : n.repeatDays with
          | none => rfl
          | some r =>
            simp only []
            by_cases hr : r ≤ 0
            · rw [if_pos hr]
            · rw [if_neg hr, if_pos h]
    rw [Option.map_some', hfix]
  · intro k m t0 r hk hdd hrd hcmp hr hover hgap n hn
    unfold advanceRecurringTasks at hn
    rw [lookup_map_nodes, hk] at hn
    simp only [Option.map_some'] at hn
    have hnc : ¬ m.completed ≠ some true := by rw [hcmp]; exact fun h => h rfl
    have hne : ¬ advanceLoop today r (dueDateDay t0) 1000 = dueDateDay t0 := by
      have h9 := advanceLoop_gt today r hr 999 (dueDateDay t0) hover
      have h1000 : (999 : Nat) + 1 = 1000 := rfl
      rw [h1000] at h9
      omega
    have hadv : advanceNode today m =
        { m with dueDate := some (civilFromDays (advanceLoop today r (dueDateDay t0) 1000)),
                 completed := some false } := by
      unfold advanceNode
      rw [hdd, hrd]
      simp only []
      rw [if_neg (by omega), if_neg hnc, if_neg (by omega), if_neg hne]
    rw [hadv] at hn
    cases hn
    refine ⟨civilFromDays (advanceLoop today r (dueDateDay t0) 1000), rfl, ?_⟩
    rw [dueDateDay_civilFromDays]
    apply advanceLoop_reaches today r hr 1000
    push_cast
    omega

/-- Concrete graph for the C4 witness, matching the spec scenario: a
completed weekly task last due 2020-01-01, advanced at 2024-01-10. -/
def gC4w : Graph :=
  [("t", { type := some "task", dueDate := some (2020, 1, 1),
           repeatDays := some 7, completed := some true })]

set_option maxRecDepth 8000 in
theorem C4_witness :
    (lookup gC4w "t" =
        some { type := some "task", dueDate := some (2020, 1, 1),
               repeatDays := some 7, completed := some true } ∧
      dueDateDay (2020, 1, 1) < dayC4 ∧
      dayC4 - dueDateDay (2020, 1, 1) ≤ 1000 * 7) ∧
      ∃ t, ({ type := some "task", dueDate := some (2024, 1, 10),
              repeatDays := some 7, completed := some false } : Node).dueDate = some t ∧
        dayC4 ≤ dueDateDay t :=
  ⟨⟨by decide, by decide, by decide⟩,
    (C4_amended_advance gC4w dayC4).2 "t"
      { type := some "task", dueDate := some (2020, 1, 1),
        repeatDays := some 7, completed := some true } (2020, 1, 1) 7
      (by decide) rfl rfl rfl (by decide) (by decide) (by decide) _ (by decide)⟩

/-- Case-insensitive character match (the `i` flag of the classifier
regex). -/
def charEqCI (a b : Char) : Bool := a.toLower = b.toLower

/-- Does `pat` match at the very start of `s`, case-insensitively? -/
def matchHere : List Char → List Char → Bool
  | [], _ => true
  | _ :: _, [] => false
  | p :: ps, c :: cs => charEqCI p c && matchHere ps cs

/-- Does `5\d\d` match at the very start of `s`? -/
def matchFiveHere : List Char → Bool
  | c1 :: c2 :: c3 :: _ => c1 = '5' && c2.isDigit && c3.isDigit
  | _ => false

/-- Does any alternative of `/429|5\d\d|Rate Limit|quota|timeout|network/i`
match at the start of `s`? -/
def retryableHere (s : List Char) : Bool :=
  matchHere ['4', '2', '9'] s || matchFiveHere s ||
    matchHere "Rate Limit".toList s || matchHere "quota".toList s ||
    matchHere "timeout".toList s || matchHere "network".toList s

/-- Scan all start positions (regex `test`). -/
def retryableScan : List Char → Bool
  | [] => retryableHere []
  | s@(_ :: rest) => retryableHere s || retryableScan rest

/-- The retryable-error classifier of `saveWithRetry`:
`/429|5\d\d|Rate Limit|quota|timeout|network/i.test(msg)`. -/
def isRetryable (msg : String) : Bool := retryableScan msg.toList

/-- Outcome of one run of `saveWithRetry`: how many write attempts were
made, the backoff waits that were slept between attempts, and the final
outcome (`none` = returned normally, `some msg` = the propagated error). -/
structure RetryResult where
  attempts : Nat
  waits : List ℚ
  outcome : Option String
deriving DecidableEq, Repr

/-- The wait before retry number `attempt + 1`:
`Math.min(8000, 400 * 2**((attempt+1) - 1)) * (0.5 + Math.random())`, with
the `attempt`-th pseudo-random draw supplied by `rand`. -/
def backoffWait (rand : Nat → ℚ) (attempt : Nat) : ℚ :=
  min 8000 (400 * 2 ^ attempt) * (1 / 2 + rand attempt)

/-- The `while (true)` loop of `saveWithRetry` in
`deprecated/useDriveBackedState.js`.  `write a` is the result of the
`driveUpdateJson` call on the `a`-th attempt (`none` = resolves, `some msg`
= rejects with an error whose message is `msg`); `attempt` is the source's
failure counter.  The loop needs no fuel in JS because a retry requires
`attempt < 5`; `fuel` is kept equal to `5 - attempt`, so the `0` case is
never reached from `saveWithRetry` itself. -/
def saveWithRetryGo (write : Nat → Option String) (rand : Nat → ℚ) :
    Nat → Nat → List ℚ → RetryResult
  | 0, attempt, waits => { attempts := attempt, waits := waits, outcome := some "" }
  | fuel + 1, attempt, waits =>
      match write attempt with
      | none => { attempts := attempt + 1, waits := waits, outcome := none }
      | some msg =>
          if isRetryable msg && attempt + 1 < 5 then
            saveWithRetryGo write rand fuel (attempt + 1) (waits ++ [backoffWait rand attempt])
          else { attempts := attempt + 1, waits := waits, outcome := some msg }

/-- `saveWithRetry(fileId, jsonObj)` with the write modelled by `write`. -/
def saveWithRetry (write : Nat → Option String) (rand : Nat → ℚ) : RetryResult :=
  saveWithRetryGo write rand 5 0 []

/-- The status the debounced save path of the deprecated hook ends in:
`setStatus("idle")` after `saveWithRetry` returns, `setStatus("error")`
when it throws. -/
def saveStatus (write : Nat → Option String) (rand : Nat → ℚ) : String :=
  match (saveWithRetry write rand).outcome with
  | none => "idle"
  | some _ => "error"

theorem saveWithRetryGo_retry_prefix (write : Nat → Option String)
    (rand : Nat → ℚ) :
    ∀ (k a : Nat) (waits : List ℚ), a + k ≤ 4 →
      (∀ i, i < k → ∃ m, write (a + i) = some m ∧ isRetryable m = true) →
      saveWithRetryGo write rand (5 - a) a waits =
        saveWithRetryGo write rand (5 - (a + k)) (a + k)
          (waits ++ (List.range k).map (fun i => backoffWait rand (a + i))) := by
  intro k
  induction k with
  | zero => intro a waits _ _; simp
  | succ k ih =>
    intro a waits hak hfail
    obtain ⟨m, hm, hret⟩ := hfail 0 (Nat.succ_pos k)
    rw [Nat.add_zero] at hm
    obtain ⟨f, hf⟩ : ∃ f, 5 - a = f + 1 := ⟨4 - a, by omega⟩
    have hstep : saveWithRetryGo write rand (5 - a) a waits =
        saveWithRetryGo write rand f (a + 1) (waits ++ [backoffWait rand a]) := by
      rw [hf]
      simp only [saveWithRetryGo, hm, hret, Bool.true_and]
      rw [if_pos (by simp only [decide_eq_true_eq]; omega)]
    rw [hstep, show f = 5 - (a + 1) from by omega,
      ih (a + 1) (waits ++ [backoffWait rand a]) (by omega)
        (fun i hi => by
          obtain ⟨m2, hm2, hret2⟩ := hfail (i + 1) (by omega)
          exact ⟨m2, by rw [← hm2]; congr 1; omega, hret2⟩)]
    rw [show a + 1 + k = a + (k + 1) from by omega]
    congr 1
    rw [List.append_assoc]
    congr 1
    rw [List.range_succ_eq_map, List.map_cons, List.map_map]
    simp only [List.singleton_append, List.cons.injEq, Nat.add_zero, true_and]
    apply List.map_congr_left
    intro i _
    simp only [Function.comp_apply]
    congr 1
    omega

/-- C7. `saveWithRetry` retries exactly the retryable failures
(HTTP 429, 5xx, rate-limit/quota/timeout/network markers) while fewer than
5 attempts have been made, sleeping
`min(8000, 400·2^(attempt−1)) · (0.5 + random)` between attempts:
(1) `k ≤ 4` retryable failures followed by a success yield exactly `k + 1`
write attempts, exactly the `k` backoff waits of that formula, and the
`idle` status; (2) a first non-retryable error propagates immediately after
exactly 1 attempt with no waits and ends in `error`; (3) five retryable
failures exhaust the attempt budget: exactly 5 attempts, then the last
error propagates. -/
theorem C7_saveWithRetry (write : Nat → Option String) (rand : Nat → ℚ) :
    (∀ k, k ≤ 4 →
      (∀ i, i < k → ∃ m, write i = some m ∧ isRetryable m = true) →
      write k = none →
      saveWithRetry write rand =
        { attempts := k + 1,
          waits := (List.range k).map (fun i => backoffWait rand i),
          outcome := none } ∧
      saveStatus write rand = "idle") ∧
    (∀ m, write 0 = some m → isRetryable m = false →
      saveWithRetry write rand =
        { attempts := 1, waits := [], outcome := some m } ∧
      saveStatus write rand = "error") ∧
    (∀ m, (∀ i, i < 4 → ∃ m2, write i = some m2 ∧ isRetryable m2 = true) →
      write 4 = some m → isRetryable m = true →
      saveWithRetry write rand =
        { attempts := 5,
          waits := (List.range 4).map (fun i => backoffWait rand i),
          outcome := some m } ∧
      saveStatus write rand = "error") := by
  refine ⟨?_, ?_, ?_⟩
  · intro k hk hfail hsucc
    have hpre := saveWithRetryGo_retry_prefix write rand k 0 [] (by omega)
      (fun i hi => by simpa using hfail i hi)
    simp only [Nat.sub_zero, Nat.zero_add, List.nil_append] at hpre
    obtain ⟨f, hf⟩ : ∃ f, 5 - k = f + 1 := ⟨4 - k, by omega⟩
    have hfin : saveWithRetryGo write rand (5 - k) k
        ((List.range k).map (fun i => backoffWait rand i)) =
        { attempts := k + 1,
          waits := (List.range k).map (fun i => backoffWait rand i),
          outcome := none } := by
      rw [hf]
      simp only [saveWithRetryGo, hsucc]
    have hrun : saveWithRetry write rand =
        { attempts := k + 1,
          waits := (List.range k).map (fun i => backoffWait rand i),
          outcome := none } := by
      unfold saveWithRetry
      rw [hpre, hfin]
    exact ⟨hrun, by unfold saveStatus; rw [hrun]⟩
  · intro m hm hret
    have hrun : saveWithRetry write rand =
        { attempts := 1, waits := [], outcome := some m } := by
      unfold saveWithRetry
      rw [show (5 : Nat) = 4 + 1 from rfl]
      simp only [saveWithRetryGo, hm, hret, Bool.false_and, Bool.false_eq_true,
        if_false]
    exact ⟨hrun, by unfold saveStatus; rw [hrun]⟩
  · intro m hfail hm hret
    have hpre := saveWithRetryGo_retry_prefix write rand 4 0 [] (by omega)
      (fun i hi => by simpa using hfail i hi)
    simp only [Nat.sub_zero, Nat.zero_add, List.nil_append] at hpre
    have hfin : saveWithRetryGo write rand (5 - 4) 4
        ((List.range 4).map (fun i => backoffWait rand i)) =
        { attempts := 5,
          waits := (List.range 4).map (fun i => backoffWait rand i),
          outcome := some m } := by
      rw [show (5 : Nat) - 4 = 0 + 1 from rfl]
      simp only [saveWithRetryGo, hm, hret, Bool.true_and]
      rw [if_neg (by simp only [decide_eq_true_eq]; omega)]
    have hrun : saveWithRetry write rand =
        { attempts := 5,
          waits := (List.range 4).map (fun i => backoffWait rand i),
          outcome := some m } := by
      unfold saveWithRetry
      rw [hpre, hfin]
    exact ⟨hrun, by unfold saveStatus; rw [hrun]⟩

/-- The write oracle of the spec's scenario: two 503 failures, then
success. -/
def write503 : Nat → Option String :=
  fun i => if i < 2 then some "Drive update failed: 503" else none

theorem C7_witness :
    ((2 : Nat) ≤ 4 ∧
      (∀ i, i < 2 → ∃ m, write503 i = some m ∧ isRetryable m = true) ∧
      write503 2 = none) ∧
      saveWithRetry write503 (fun _ => 1 / 2) =
        { attempts := 3,
          waits := (List.range 2).map (fun i => backoffWait (fun _ => 1 / 2) i),
          outcome := none } ∧
      saveStatus write503 (fun _ => 1 / 2) = "idle" := by
  have hfails : ∀ i, i < 2 → ∃ m, write503 i = some m ∧ isRetryable m = true := by
    intro i hi
    interval_cases i
    · exact ⟨"Drive update failed: 503", rfl, by decide⟩
    · exact ⟨"Drive update failed: 503", rfl, by decide⟩
  exact ⟨⟨by omega, hfails, rfl⟩,
    (C7_saveWithRetry write503 (fun _ => 1 / 2)).1 2 (by omega) hfails rfl⟩

/-- The debounce default of `useGoogleDriveState` (`debounceMs = 800`). -/
def debounceMs : Int := 800

/-- The mutable refs of `useGoogleDriveState` that drive the debounced save
path, plus a log of the payloads passed to `writeAppDataConfig`, in call
order.  `timerAt` is the absolute fire time of the pending debounce
timeout (`debounceRef`), `none` when no timeout is pending. -/
structure SyncState (α : Type) where
  latest : α
  timerAt : Option Int
  saving : Bool
  queued : Bool
  writes : List α
deriving Repr

/-- Events of the debounce machinery, each stamped with its time in
milliseconds: `setState p t` is a state update (it refreshes `latestRef`
and calls `scheduleSave`, which clears any pending timeout and arms a new
one `debounceMs` later); `timerFire t` is the callback of the timeout that
was armed to fire at `t`. -/
inductive SyncEvent (α : Type) where
  | setState (p : α) (t : Int)
  | timerFire (t : Int)

/-- One step of the machinery.  `setState`: `latestRef.current = next;
clearTimeout(debounceRef.current); debounceRef.current = setTimeout(...)`.
`timerFire`: only the currently armed timeout can fire (a cleared timeout
never does, so a stale fire is a no-op); the callback runs `performSave()`,
which either records a queued follow-up when a write is in flight or calls
`writeAppDataConfig(latestRef.current)`. -/
def syncStep {α : Type} (s : SyncState α) : SyncEvent α → SyncState α
  | .setState p t => { s with latest := p, timerAt := some (t + debounceMs) }
  | .timerFire t =>
      if s.timerAt = some t then
        if s.saving then { s with timerAt := none, queued := true }
        else { s with timerAt := none, writes := s.writes ++ [s.latest] }
      else s

/-- The idle engine right after its initial load: no pending timeout, no
write in flight, nothing written yet. -/
def syncInit {α : Type} (p0 : α) : SyncState α :=
  { latest := p0, timerAt := none, saving := false, queued := false, writes := [] }

theorem foldl_setStates {α : Type} :
    ∀ (qs : List (α × Int)) (q : α × Int) (s : SyncState α),
      List.foldl syncStep s
          ((qs ++ [q]).map (fun r => SyncEvent.setState r.1 r.2)) =
        { s with latest := q.1, timerAt := some (q.2 + debounceMs) } := by
  intro qs
  induction qs with
  | nil => intro q s; rfl
  | cons r rest ih =>
    intro q s
    simp only [List.cons_append, List.map_cons, List.foldl_cons]
    rw [ih q]
    simp [syncStep]

/-- C6. Scheduling `N ≥ 1` snapshots inside one debounce window (each
re-arming the timeout before the previous one could fire) and then letting
the last timeout fire produces exactly one `writeAppDataConfig` call, and
it carries the last snapshot; the earlier `N − 1` snapshots are never
written. -/
theorem C6_debounce_coalesces {α : Type} (p0 : α) (ps : List (α × Int))
    (q : α × Int)
    (hwindow : List.Chain' (fun a b => a ≤ b ∧ b < a + debounceMs)
      ((ps ++ [q]).map Prod.snd)) :
    (List.foldl syncStep (syncInit p0)
        ((ps ++ [q]).map (fun r => SyncEvent.setState r.1 r.2) ++
          [SyncEvent.timerFire (q.2 + debounceMs)])).writes = [q.1] := by
  rw [List.foldl_append, foldl_setStates]
  simp [syncStep, syncInit]

theorem C6_witness :
    List.Chain' (fun a b : Int => a ≤ b ∧ b < a + debounceMs)
        (([((1 : Nat), (0 : Int)), (2, 100)] ++ [(3, 200)]).map Prod.snd) ∧
      (List.foldl syncStep (syncInit 0)
          (([((1 : Nat), (0 : Int)), (2, 100)] ++ [(3, 200)]).map
              (fun r : Nat × Int => SyncEvent.setState r.1 r.2) ++
            [SyncEvent.timerFire (200 + debounceMs)])).writes = [3] := by
  have hw : List.Chain' (fun a b : Int => a ≤ b ∧ b < a + debounceMs)
      (([((1 : Nat), (0 : Int)), (2, 100)] ++ [(3, 200)]).map Prod.snd) := by
    simp [debounceMs]
  exact ⟨hw, C6_debounce_coalesces 0 [(1, 0), (2, 100)] (3, 200) hw⟩

/-- The JS `Map` `targetDepth` of the depth-recompute effect: id to
assigned depth, in insertion order. -/
abbrev DepthMap : Type := List (String × Nat)

/-- `targetDepth.get(x)`. -/
def dmGet : DepthMap → String → Option Nat
  | [], _ => none
  | (k, v) :: rest, x => if k = x then some v else dmGet rest x

/-- `targetDepth.set(x, v)` (an existing key keeps its slot). -/
def dmSet : DepthMap → String → Nat → DepthMap
  | [], k, v => [(k, v)]
  | (k', v') :: rest, k, v =>
      if k' = k then (k, v) :: rest else (k', v') :: dmSet rest k v

theorem dmGet_dmSet_self (T : DepthMap) (k : String) (v : Nat) :
    dmGet (dmSet T k v) k = some v := by
  induction T with
  | nil => simp [dmSet, dmGet]
  | cons p rest ih =>
    obtain ⟨k', v'⟩ := p
    by_cases hk : k' = k
    · simp [dmSet, hk, dmGet]
    · simp [dmSet, hk, dmGet, ih]

theorem dmGet_dmSet_other (T : DepthMap) (k x : String) (v : Nat)
    (hne : x ≠ k) : dmGet (dmSet T k v) x = dmGet T x := by
  have hkx : ¬ k = x := fun h => hne h.symm
  induction T with
  | nil => simp [dmSet, dmGet, hkx]
  | cons p rest ih =>
    obtain ⟨k₀, v₀⟩ := p
    by_cases hk : k₀ = k
    · subst hk
      simp [dmSet, dmGet, hkx]
    · simp only [dmSet, if_neg hk, dmGet]
      by_cases hk' : k₀ = x
      · simp [hk']
      · simp [hk', ih]

/-- The children array the BFS walks for a node:
`(info && Array.isArray(info.children)) ? info.children : []`. -/
def childrenOf (g : Graph) (id : String) : List String :=
  ((lookup g id).bind Node.children).getD []

/-- A BFS edge: `c` is listed among `a`'s children AND `c` itself exists
(`if (!prev[cid]) continue` skips ghosts, which therefore never get a
depth). -/
def EdgeTo (g : Graph) (a c : String) : Prop :=
  (∃ n, lookup g a = some n ∧ c ∈ n.children.getD []) ∧
    ∃ m, lookup g c = some m

/-- `RootPath g n k`: a length-`k` walk from `"root"` to `n` along BFS
edges. -/
inductive RootPath (g : Graph) : String → Nat → Prop where
  | zero : RootPath g "root" 0
  | step {a c : String} {k : Nat} (hp : RootPath g a k) (he : EdgeTo g a c) :
      RootPath g c (k + 1)

/-- `n` is reachable from the root through existing children. -/
def reachableB (g : Graph) (n : String) : Prop := ∃ k, RootPath g n k

/-- The minimal BFS distance from the root (0 on unreachable ids, which are
never compared). -/
noncomputable def dist (g : Graph) (n : String) : Nat :=
  sInf { k | RootPath g n k }

theorem dist_le {g : Graph} {n : String} {k : Nat} (h : RootPath g n k) :
    dist g n ≤ k := Nat.sInf_le h

theorem rootPath_dist {g : Graph} {n : String} (h : reachableB g n) :
    RootPath g n (dist g n) := Nat.sInf_mem h

theorem dist_root (g : Graph) : dist g "root" = 0 :=
  Nat.le_zero.mp (dist_le RootPath.zero)

theorem reachableB_root (g : Graph) : reachableB g "root" := ⟨0, RootPath.zero⟩

theorem rootPath_zero_eq {g : Graph} {n : String} (h : RootPath g n 0) :
    n = "root" := by
  cases h
  rfl

theorem reachableB_of_edge {g : Graph} {a c : String} (ha : reachableB g a)
    (he : EdgeTo g a c) : reachableB g c := by
  obtain ⟨k, hk⟩ := ha
  exact ⟨k + 1, RootPath.step hk he⟩

theorem dist_triangle {g : Graph} {a c : String} (ha : reachableB g a)
    (he : EdgeTo g a c) : dist g c ≤ dist g a + 1 :=
  dist_le (RootPath.step (rootPath_dist ha) he)

theorem dist_pred {g : Graph} {n : String} (hn : reachableB g n)
    (hnr : n ≠ "root") :
    ∃ p, EdgeTo g p n ∧ reachableB g p ∧ dist g p + 1 = dist g n := by
  have hp := rootPath_dist hn
  cases hd : dist g n with
  | zero =>
    rw [hd] at hp
    exact absurd (rootPath_zero_eq hp) hnr
  | succ k =>
    rw [hd] at hp
    cases hp with
    | step hwalk he =>
      rename_i a
      have hra : reachableB g a := ⟨k, hwalk⟩
      have h1 : dist g a ≤ k := dist_le hwalk
      have h2 : dist g n ≤ dist g a + 1 := dist_triangle hra he
      refine ⟨a, he, hra, ?_⟩
      omega

/-- One relaxation of a child `cid` while processing a node whose assigned
depth is `d` (the body of `for (const cid of children)`): skip missing
children; when unassigned, or assigned a larger value, store `d + 1` and
enqueue. -/
def relaxChild (g : Graph) (d : Nat) (st : DepthMap × List String)
    (cid : String) : DepthMap × List String :=
  match lookup g cid with
  | none => st
  | some _ =>
      match dmGet st.1 cid with
      | none => (dmSet st.1 cid (d + 1), st.2 ++ [cid])
      | some cur =>
          if d + 1 < cur then (dmSet st.1 cid (d + 1), st.2 ++ [cid]) else st

/-- The `while (q.length)` loop of the depth recompute: shift the front id,
read its depth, relax all its children.  The JS loop needs no fuel because
only a strict improvement re-enqueues (and, as proved below, none ever
fires); `fuel` bounds the number of iterations and `recomputeDepths`
supplies a provably sufficient amount.  A queued id is always assigned, so
the `none` row is dead code (in JS it would propagate `NaN`). -/
def bfsGo (g : Graph) : Nat → DepthMap → List String → DepthMap
  | 0, T, _ => T
  | _ + 1, T, [] => T
  | fuel + 1, T, id :: q =>
      match dmGet T id with
      | none => bfsGo g fuel T q
      | some d =>
          let st := (childrenOf g id).foldl (relaxChild g d) (T, q)
          bfsGo g fuel st.1 st.2

/-- The depth-recompute effect of the Home component (`part_002`): no-op
without a root; otherwise BFS from `"root"` (initial map `root ↦ 0`), then
write back `depth` for exactly the ids the BFS assigned (the source skips
ids whose stored depth already equals the target, which yields the same
content). -/
def recomputeDepths (g : Graph) : Graph :=
  match lookup g "root" with
  | none => g
  | some _ =>
      let T := bfsGo g (2 * (keys g).toFinset.card + 1) [("root", 0)] ["root"]
      List.map (fun p => (p.1,
        match dmGet T p.1 with
        | none => p.2
        | some w => { p.2 with depth := some (w : Int) })) g

/-- How many existing ids are still unassigned: the termination potential
of the BFS loop. -/
def unassignedCard (g : Graph) (T : DepthMap) : Nat :=
  ((keys g).toFinset.filter (fun x => dmGet T x = none)).card

theorem unassignedCard_dmSet (g : Graph) (T : DepthMap) (c : String) (v : Nat)
    (hc : c ∈ keys g) (hg : dmGet T c = none) :
    unassignedCard g (dmSet T c v) = unassignedCard g T - 1 ∧
      1 ≤ unassignedCard g T := by
  have hmem : c ∈ ((keys g).toFinset.filter (fun x => dmGet T x = none)) := by
    rw [Finset.mem_filter]
    exact ⟨List.mem_toFinset.mpr hc, by simp [hg]⟩
  have hfil : (keys g).toFinset.filter (fun x => dmGet (dmSet T c v) x = none) =
      ((keys g).toFinset.filter (fun x => dmGet T x = none)).erase c := by
    ext x
    rw [Finset.mem_erase, Finset.mem_filter, Finset.mem_filter]
    constructor
    · intro ⟨hx1, hx2⟩
      have hxc : x ≠ c := by
        intro he
        rw [he, dmGet_dmSet_self] at hx2
        exact absurd hx2 (by simp)
      rw [dmGet_dmSet_other T c x v hxc] at hx2
      exact ⟨hxc, hx1, hx2⟩
    · intro ⟨hxc, hx1, hx2⟩
      rw [dmGet_dmSet_other T c x v hxc]
      exact ⟨hx1, hx2⟩
  constructor
  · unfold unassignedCard
    rw [hfil, Finset.card_erase_of_mem hmem]
  · unfold unassignedCard
    have := Finset.card_pos.mpr ⟨c, hmem⟩
    omega

theorem relaxFold_spec (g : Graph) (id : String) (d : Nat) (nodeId : Node)
    (hid : lookup g id = some nodeId) (hrid : reachableB g id)
    (hdid : dist g id = d) :
    ∀ (cs : List String) (T : DepthMap) (Q : List String),
      (∀ c ∈ cs, c ∈ nodeId.children.getD []) →
      (∀ n v, dmGet T n = some v →
        reachableB g n ∧ dist g n = v ∧ ∃ m, lookup g n = some m) →
      (∀ c, dmGet T c = none → reachableB g c → d + 1 ≤ dist g c) →
      ∀ T1 Q1, cs.foldl (relaxChild g d) (T, Q) = (T1, Q1) →
      (∀ n v, dmGet T n = some v → dmGet T1 n = some v) ∧
      (∀ n v, dmGet T1 n = some v →
        reachableB g n ∧ dist g n = v ∧ ∃ m, lookup g n = some m) ∧
      (∃ l, Q1 = Q ++ l ∧
        (∀ x ∈ l, dmGet T1 x = some (d + 1) ∧ dist g x = d + 1) ∧
        (∀ n v, dmGet T1 n = some v → dmGet T n = some v ∨ n ∈ l)) ∧
      (∀ c ∈ cs, (∃ m, lookup g c = some m) → ∃ w, dmGet T1 c = some w) ∧
      (2 * unassignedCard g T1 + Q1.length ≤
        2 * unassignedCard g T + Q.length) := by
  intro cs
  induction cs with
  | nil =>
    intro T Q _ hA _ T1 Q1 hfold
    simp only [List.foldl_nil, Prod.mk.injEq] at hfold
    obtain ⟨rfl, rfl⟩ := hfold
    exact ⟨fun n v h => h, hA, ⟨[], by simp, by simp, fun n v h => Or.inl h⟩,
      by simp, by omega⟩
  | cons c cs ih =>
    intro T Q hcs hA hfresh T1 Q1 hfold
    rw [List.foldl_cons] at hfold
    have hedge0 : c ∈ nodeId.children.getD [] := hcs c (List.mem_cons_self _ _)
    cases hc : lookup g c with
    | none =>
      rw [show relaxChild g d (T, Q) c = (T, Q) by
        unfold relaxChild; rw [hc]] at hfold
      obtain ⟨h1, h2, h3, h4, h5⟩ := ih T Q
        (fun x hx => hcs x (List.mem_cons_of_mem _ hx)) hA hfresh T1 Q1 hfold
      refine ⟨h1, h2, h3, ?_, h5⟩
      intro x hx hex
      rcases List.mem_cons.mp hx with rfl | hx'
      · obtain ⟨m, hm⟩ := hex
        rw [hm] at hc
        exact absurd hc (by simp)
      · exact h4 x hx' hex
    | some mc =>
      have hedge : EdgeTo g id c := ⟨⟨nodeId, hid, hedge0⟩, ⟨mc, hc⟩⟩
      cases hg : dmGet T c with
      | some cur =>
        have hcur := hA c cur hg
        have htri : dist g c ≤ d + 1 := hdid ▸ dist_triangle hrid hedge
        have hno : ¬ d + 1 < cur := by omega
        rw [show relaxChild g d (T, Q) c = (T, Q) by
          unfold relaxChild; rw [hc, hg]; simp [hno]] at hfold
        obtain ⟨h1, h2, h3, h4, h5⟩ := ih T Q
          (fun x hx => hcs x (List.mem_cons_of_mem _ hx)) hA hfresh T1 Q1 hfold
        refine ⟨h1, h2, h3, ?_, h5⟩
        intro x hx hex
        rcases List.mem_cons.mp hx with rfl | hx'
        · exact ⟨cur, h1 x cur hg⟩
        · exact h4 x hx' hex
      | none =>
        have hrc : reachableB g c := reachableB_of_edge hrid hedge
        have htri : dist g c ≤ d + 1 := hdid ▸ dist_triangle hrid hedge
        have hge : d + 1 ≤ dist g c := hfresh c hg hrc
        have hdc : dist g c = d + 1 := by omega
        rw [show relaxChild g d (T, Q) c = (dmSet T c (d + 1), Q ++ [c]) by
          unfold relaxChild; rw [hc, hg]] at hfold
        have hA2 : ∀ n v, dmGet (dmSet T c (d + 1)) n = some v →
            reachableB g n ∧ dist g n = v ∧ ∃ m, lookup g n = some m := by
          intro n v hv
          by_cases hnc : n = c
          · subst hnc
            rw [dmGet_dmSet_self] at hv
            cases hv
            exact ⟨hrc, hdc, ⟨mc, hc⟩⟩
          · rw [dmGet_dmSet_other T c n (d + 1) hnc] at hv
            exact hA n v hv
        have hfresh2 : ∀ x, dmGet (dmSet T c (d + 1)) x = none →
            reachableB g x → d + 1 ≤ dist g x := by
          intro x hx hrx
          by_cases hxc : x = c
          · subst hxc
            rw [dmGet_dmSet_self] at hx
            exact absurd hx (by simp)
          · rw [dmGet_dmSet_other T c x (d + 1) hxc] at hx
            exact hfresh x hx hrx
        obtain ⟨h1, h2, h3, h4, h5⟩ := ih (dmSet T c (d + 1)) (Q ++ [c])
          (fun x hx => hcs x (List.mem_cons_of_mem _ hx)) hA2 hfresh2 T1 Q1 hfold
        have hsetc : dmGet T1 c = some (d + 1) :=
          h1 c (d + 1) (dmGet_dmSet_self T c (d + 1))
        refine ⟨?_, h2, ?_, ?_, ?_⟩
        · intro n v hv
          have hnc : n ≠ c := by
            intro he
            rw [he, hg] at hv
            exact absurd hv (by simp)
          exact h1 n v (by rw [dmGet_dmSet_other T c n (d + 1) hnc]; exact hv)
        · obtain ⟨l, hl, hlx, hlall⟩ := h3
          refine ⟨c :: l, by rw [hl, List.append_assoc]; rfl, ?_, ?_⟩
          · intro x hx
            rcases List.mem_cons.mp hx with rfl | hx'
            · exact ⟨hsetc, hdc⟩
            · exact hlx x hx'
          · intro n v hv
            rcases hlall n v hv with hT' | hl'
            · by_cases hnc : n = c
              · exact Or.inr (hnc ▸ List.mem_cons_self _ _)
              · rw [dmGet_dmSet_other T c n (d + 1) hnc] at hT'
                exact Or.inl hT'
            · exact Or.inr (List.mem_cons_of_mem _ hl')
        · intro x hx hex
          rcases List.mem_cons.mp hx with rfl | hx'
          · exact ⟨d + 1, hsetc⟩
          · exact h4 x hx' hex
        · obtain ⟨hu1, hu2⟩ := unassignedCard_dmSet g T c (d + 1)
            (mem_keys_of_lookup hc) hg
          rw [hu1] at h5
          simp only [List.length_append, List.length_singleton] at h5
          omega

/-- The loop invariant of the BFS: every assigned id carries exactly its
minimal BFS distance, every queued id is assigned, every assigned id is
queued or has all its BFS children assigned, and the queue splits into a
front segment at some level `d0` and a back segment at `d0 + 1` with all
of levels `≤ d0` already assigned. -/
structure BfsInv (g : Graph) (T : DepthMap) (q : List String) : Prop where
  assigned_ok : ∀ n v, dmGet T n = some v →
    reachableB g n ∧ dist g n = v ∧ ∃ m, lookup g n = some m
  queue_assigned : ∀ i ∈ q, ∃ v, dmGet T i = some v
  processed_closed : ∀ n v, dmGet T n = some v →
    n ∈ q ∨ ∀ c, EdgeTo g n c → ∃ w, dmGet T c = some w
  seg : ∃ d0 q1 q2, q = q1 ++ q2 ∧
    (∀ i ∈ q1, dist g i = d0) ∧
    (∀ i ∈ q2, dist g i = d0 + 1) ∧
    (∀ n, reachableB g n → dist g n ≤ d0 → ∃ v, dmGet T n = some v)

theorem seg_head {g : Graph} {T : DepthMap} {id : String} {q : List String}
    (inv : BfsInv g T (id :: q)) :
    ∃ d0 q1 q2, q = q1 ++ q2 ∧ dist g id = d0 ∧
      (∀ i ∈ q1, dist g i = d0) ∧
      (∀ i ∈ q2, dist g i = d0 + 1) ∧
      (∀ n, reachableB g n → dist g n ≤ d0 → ∃ v, dmGet T n = some v) := by
  obtain ⟨d0, q1, q2, heq, hq1, hq2, hcov⟩ := inv.seg
  cases q1 with
  | cons a q1t =>
    rw [List.cons_append] at heq
    injection heq with ha hq
    subst ha
    subst hq
    exact ⟨d0, q1t, q2, rfl, hq1 id (List.mem_cons_self _ _),
      fun i hi => hq1 i (List.mem_cons_of_mem _ hi), hq2, hcov⟩
  | nil =>
    rw [List.nil_append] at heq
    subst heq
    refine ⟨d0 + 1, q, [], by simp, hq2 id (List.mem_cons_self _ _),
      fun i hi => hq2 i (List.mem_cons_of_mem _ hi), by simp, ?_⟩
    intro n hrn hdn
    rcases Nat.lt_or_ge (dist g n) (d0 + 1) with hlt | hge
    · exact hcov n hrn (by omega)
    · have hdn' : dist g n = d0 + 1 := by omega
      have hnr : n ≠ "root" := by
        intro he
        rw [he, dist_root] at hdn'
        omega
      obtain ⟨p, hpe, hpr, hpd⟩ := dist_pred hrn hnr
      have hdp : dist g p = d0 := by omega
      obtain ⟨v, hv⟩ := hcov p hpr (by omega)
      rcases inv.processed_closed p v hv with hin | hcl
      · have := hq2 p hin
        omega
      · exact hcl n hpe

theorem bfsGo_spec (g : Graph) :
    ∀ (fuel : Nat) (T : DepthMap) (q : List String),
      BfsInv g T q →
      q.length + 2 * unassignedCard g T + 1 ≤ fuel →
      (∀ n v, dmGet T n = some v → dmGet (bfsGo g fuel T q) n = some v) ∧
      (∀ n v, dmGet (bfsGo g fuel T q) n = some v →
        reachableB g n ∧ dist g n = v ∧ ∃ m, lookup g n = some m) ∧
      (∀ n v, dmGet (bfsGo g fuel T q) n = some v →
        ∀ c, EdgeTo g n c → ∃ w, dmGet (bfsGo g fuel T q) c = some w) := by
  intro fuel
  induction fuel with
  | zero =>
    intro T q _ hfuel
    exact absurd hfuel (by omega)
  | succ f ih =>
    intro T q inv hfuel
    cases q with
    | nil =>
      have hred : bfsGo g (f + 1) T [] = T := rfl
      rw [hred]
      refine ⟨fun n v h => h, inv.assigned_ok, ?_⟩
      intro n v hv c hc
      rcases inv.processed_closed n v hv with hin | hcl
      · exact absurd hin (by simp)
      · exact hcl c hc
    | cons id q' =>
      obtain ⟨dv, hdv⟩ := inv.queue_assigned id (List.mem_cons_self _ _)
      obtain ⟨hrid, hdist, nodeId, hnode⟩ := inv.assigned_ok id dv hdv
      obtain ⟨T1, Q1, hfold⟩ :
          ∃ T1 Q1, (childrenOf g id).foldl (relaxChild g dv) (T, q') = (T1, Q1) :=
        ⟨_, _, rfl⟩
      have hred : bfsGo g (f + 1) T (id :: q') = bfsGo g f T1 Q1 := by
        simp only [bfsGo, hdv]
        rw [hfold]
      obtain ⟨d0, q1, q2, hq', hd0, hq1, hq2, hcov⟩ := seg_head inv
      have hdvd0 : dv = d0 := by rw [← hdist, hd0]
      subst hdvd0
      have hcs : ∀ c ∈ childrenOf g id, c ∈ nodeId.children.getD [] := by
        intro c hc
        unfold childrenOf at hc
        rw [hnode] at hc
        exact hc
      have hfresh : ∀ c, dmGet T c = none → reachableB g c → dv + 1 ≤ dist g c := by
        intro c hnone hrc
        by_contra hlt
        obtain ⟨v, hv⟩ := hcov c hrc (by omega)
        rw [hnone] at hv
        exact absurd hv (by simp)
      obtain ⟨h1, h2, ⟨l, hl, hlx, hlall⟩, h4, h5⟩ :=
        relaxFold_spec g id dv nodeId hnode hrid hdist (childrenOf g id) T q'
          hcs inv.assigned_ok hfresh T1 Q1 hfold
      have inv1 : BfsInv g T1 Q1 := by
        refine ⟨h2, ?_, ?_, ?_⟩
        · intro i hi
          rw [hl] at hi
          rcases List.mem_append.mp hi with hi' | hi'
          · obtain ⟨v, hv⟩ := inv.queue_assigned i (List.mem_cons_of_mem _ hi')
            exact ⟨v, h1 i v hv⟩
          · exact ⟨dv + 1, (hlx i hi').1⟩
        · intro n v hv
          rcases hlall n v hv with hvT | hnl
          · rcases inv.processed_closed n _ hvT with hin | hcl
            · rcases List.mem_cons.mp hin with rfl | hin'
              · refine Or.inr ?_
                intro c hc
                obtain ⟨⟨n', hn', hcc⟩, m, hm⟩ := hc
                rw [hnode] at hn'
                injection hn' with hn'
                subst hn'
                refine h4 c ?_ ⟨m, hm⟩
                unfold childrenOf
                rw [hnode]
                exact hcc
              · exact Or.inl (by rw [hl]; exact List.mem_append.mpr (Or.inl hin'))
            · refine Or.inr ?_
              intro c hc
              obtain ⟨w, hw⟩ := hcl c hc
              exact ⟨w, h1 c w hw⟩
          · exact Or.inl (by rw [hl]; exact List.mem_append.mpr (Or.inr hnl))
        · refine ⟨dv, q1, q2 ++ l, by rw [hl, hq', List.append_assoc], hq1, ?_, ?_⟩
          · intro i hi
            rcases List.mem_append.mp hi with hi' | hi'
            · exact hq2 i hi'
            · exact (hlx i hi').2
          · intro n hrn hdn
            obtain ⟨v, hv⟩ := hcov n hrn hdn
            exact ⟨v, h1 n v hv⟩
      have hfuel1 : Q1.length + 2 * unassignedCard g T1 + 1 ≤ f := by
        simp only [List.length_cons] at hfuel
        omega
      obtain ⟨ih1, ih2, ih3⟩ := ih T1 Q1 inv1 hfuel1
      rw [hred]
      exact ⟨fun n v hv => ih1 n v (h1 n v hv), ih2, ih3⟩

theorem bfs_complete (g : Graph) (T : DepthMap)
    (hA : ∀ n v, dmGet T n = some v →
      reachableB g n ∧ dist g n = v ∧ ∃ m, lookup g n = some m)
    (hC : ∀ n v, dmGet T n = some v → ∀ c, EdgeTo g n c → ∃ w, dmGet T c = some w)
    (hr : ∃ v, dmGet T "root" = some v) :
    ∀ n, reachableB g n → dmGet T n = some (dist g n) := by
  have main : ∀ k n, reachableB g n → dist g n = k → ∃ v, dmGet T n = some v := by
    intro k
    induction k using Nat.strong_induction_on with
    | _ k ihk =>
      intro n hn hk
      by_cases hro : n = "root"
      · subst hro
        exact hr
      · obtain ⟨p, hpe, hpr, hpd⟩ := dist_pred hn hro
        obtain ⟨v, hv⟩ := ihk (dist g p) (by omega) p hpr rfl
        exact hC p v hv n hpe
  intro n hn
  obtain ⟨v, hv⟩ := main (dist g n) n hn rfl
  have hd := (hA n v hv).2.1
  rw [← hd] at hv
  exact hv

theorem lookup_map_withKey (f : String → Node → Node) (g : Graph) (k : String) :
    lookup (List.map (fun p => (p.1, f p.1 p.2)) g : Graph) k =
      (lookup g k).map (f k) := by
  induction g with
  | nil => rfl
  | cons p rest ih =>
    obtain ⟨k', n⟩ := p
    by_cases hk : k' = k
    · subst hk
      simp [lookup]
    · simp [lookup, hk, ih]

/-- C5. With a root present, `recomputeDepths` gives the root depth 0 and
every node reachable from the root through existing children the depth
`dist g n`, its minimal BFS distance; every reachable non-root node ends up
exactly one deeper than one of its parents; and a node unreachable from the
root is left entirely unchanged (in particular its previous depth is
kept). -/
theorem C5_recomputeDepths (g : Graph) (m0 : Node)
    (hroot : lookup g "root" = some m0) :
    (∀ n, lookup (recomputeDepths g) "root" = some n → n.depth = some 0) ∧
    (∀ k n, lookup (recomputeDepths g) k = some n → reachableB g k →
      n.depth = some (dist g k : Int)) ∧
    (∀ k nk, lookup (recomputeDepths g) k = some nk → reachableB g k →
      k ≠ "root" →
      ∃ p np, EdgeTo g p k ∧ lookup (recomputeDepths g) p = some np ∧
        ∃ dp : Int, np.depth = some dp ∧ nk.depth = some (dp + 1)) ∧
    (∀ k n, lookup g k = some n → ¬ reachableB g k →
      lookup (recomputeDepths g) k = some n) := by
  set T := bfsGo g (2 * (keys g).toFinset.card + 1) [("root", 0)] ["root"] with hT
  have inv0 : BfsInv g [("root", 0)] ["root"] := by
    refine ⟨?_, ?_, ?_, ?_⟩
    · intro n v hv
      unfold dmGet at hv
      by_cases hn : n = "root"
      · subst hn
        simp at hv
        subst hv
        exact ⟨reachableB_root g, dist_root g, ⟨m0, hroot⟩⟩
      · rw [if_neg (fun h => hn h.symm)] at hv
        exact absurd hv (by simp [dmGet])
    · intro i hi
      rcases List.mem_singleton.mp hi with rfl
      exact ⟨0, rfl⟩
    · intro n v hv
      unfold dmGet at hv
      by_cases hn : n = "root"
      · exact Or.inl (hn ▸ List.mem_singleton.mpr rfl)
      · rw [if_neg (fun h => hn h.symm)] at hv
        exact absurd hv (by simp [dmGet])
    · refine ⟨0, ["root"], [], by simp, by simp [dist_root], by simp, ?_⟩
      intro n hrn hdn
      have h0 : dist g n = 0 := by omega
      have := rootPath_dist hrn
      rw [h0] at this
      have := rootPath_zero_eq this
      subst this
      exact ⟨0, rfl⟩
  have hrmem : "root" ∈ (keys g).toFinset :=
    List.mem_toFinset.mpr (mem_keys_of_lookup hroot)
  have hu0 : unassignedCard g [("root", 0)] + 1 ≤ (keys g).toFinset.card := by
    have hsub : (keys g).toFinset.filter
        (fun x => dmGet [("root", 0)] x = none) ⊆ (keys g).toFinset.erase "root" := by
      intro x hx
      rw [Finset.mem_filter] at hx
      rw [Finset.mem_erase]
      refine ⟨?_, hx.1⟩
      intro he
      subst he
      simp [dmGet] at hx
    have hle := Finset.card_le_card hsub
    rw [Finset.card_erase_of_mem hrmem] at hle
    have hpos := Finset.card_pos.mpr ⟨"root", hrmem⟩
    unfold unassignedCard
    omega
  have hfuel : (["root"] : List String).length +
      2 * unassignedCard g [("root", 0)] + 1 ≤
      2 * (keys g).toFinset.card + 1 := by
    simp only [List.length_singleton]
    omega
  obtain ⟨hc1, hc2, hc3⟩ :=
    bfsGo_spec g (2 * (keys g).toFinset.card + 1) [("root", 0)] ["root"] inv0 hfuel
  rw [← hT] at hc1 hc2 hc3
  have hrootT : dmGet T "root" = some 0 := hc1 "root" 0 (by simp [dmGet])
  have hcompl : ∀ n, reachableB g n → dmGet T n = some (dist g n) :=
    bfs_complete g T hc2 hc3 ⟨0, hrootT⟩
  have hres : recomputeDepths g = List.map (fun p => (p.1,
      match dmGet T p.1 with
      | none => p.2
      | some w => { p.2 with depth := some (w : Int) })) g := by
    unfold recomputeDepths
    rw [hroot]
  have hlk : ∀ k, lookup (recomputeDepths g) k = (lookup g k).map (fun n =>
      match dmGet T k with
      | none => n
      | some w => { n with depth := some (w : Int) }) := by
    intro k
    rw [hres]
    exact lookup_map_withKey (fun k n =>
      match dmGet T k with
      | none => n
      | some w => { n with depth := some (w : Int) }) g k
  have hmain : ∀ k n, lookup (recomputeDepths g) k = some n → reachableB g k →
      n.depth = some (dist g k : Int) := by
    intro k n hkn hrk
    rw [hlk k, hcompl k hrk] at hkn
    cases hl : lookup g k with
    | none => rw [hl] at hkn; exact absurd hkn (by simp)
    | some m =>
      rw [hl] at hkn
      simp only [Option.map_some'] at hkn
      cases hkn
      rfl
  refine ⟨?_, hmain, ?_, ?_⟩
  · intro n hn
    have := hmain "root" n hn (reachableB_root g)
    rw [this, dist_root]
    rfl
  · intro k nk hk hrk hkr
    obtain ⟨p, hpe, hpr, hpd⟩ := dist_pred hrk hkr
    obtain ⟨np0, hnp0, -⟩ := hpe.1
    have hlp : lookup (recomputeDepths g) p = some (
        match dmGet T p with
        | none => np0
        | some w => { np0 with depth := some (w : Int) }) := by
      rw [hlk p, hnp0]
      rfl
    rw [hcompl p hpr] at hlp
    refine ⟨p, _, hpe, hlp, (dist g p : Int), rfl, ?_⟩
    rw [hmain k nk hk hrk, ← hpd]
    push_cast
    ring_nf
  · intro k n hkn hnr
    have hnone : dmGet T k = none := by
      cases hd : dmGet T k with
      | none => rfl
      | some v => exact absurd (hc2 k v hd).1 hnr
    rw [hlk k, hkn, hnone]
    rfl

/-- Concrete graph for the C5 witness: `root → A`, with `A` carrying a
stale depth 5 that the recompute corrects to 1. -/
def gC5 : Graph :=
  [("root", { children := some ["A"], depth := some 0 }),
   ("A", { children := some [], depth := some 5 })]

theorem C5_witness :
    (lookup gC5 "root" = some { children := some ["A"], depth := some 0 } ∧
      reachableB gC5 "A" ∧
      lookup (recomputeDepths gC5) "A" =
        some { children := some [], depth := some 1 }) ∧
      ({ children := some [], depth := some 1 } : Node).depth =
        some (dist gC5 "A" : Int) := by
  have hroot : lookup gC5 "root" =
      some { children := some ["A"], depth := some 0 } := by decide
  have hreach : reachableB gC5 "A" :=
    ⟨1, RootPath.step RootPath.zero
      ⟨⟨{ children := some ["A"], depth := some 0 }, hroot, by decide⟩,
       ⟨{ children := some [], depth := some 5 }, by decide⟩⟩⟩
  have hlook : lookup (recomputeDepths gC5) "A" =
      some { children := some [], depth := some 1 } := by decide
  exact ⟨⟨hroot, hreach, hlook⟩,
    (C5_recomputeDepths gC5 _ hroot).2.1 "A" _ hlook hreach⟩

end TaskGraph
